import Mathlib

/-!
# Verification of the addr_gen_wb address generator (src/wb_block.py)

This file shallowly embeds the data model, the address allocator
(`wb_block.analyze`), the register/field constructors and the emitter
(`wb_block.gen_vhdl`) of `src/wb_block.py`, and proves the claims of the
specification about them.

Python integers are modelled as `Nat` (they are arbitrary-precision
non-negative quantities in this program, except `wb_field.msb` which can be
`-1` for a zero-width field, hence `Int` there).  Python exceptions are
modelled with `Except`/`Option`.  Attributes that Python adds dynamically
during `analyze`/`gen_vhdl` (`wb_area.adr_bits`, `wb_block.addr_size`, ...)
are `Option`-valued, `none` meaning "attribute not yet set" (reading such an
attribute before it is set is an `AttributeError`, i.e. a failure).
-/

namespace AddrGenWb

/-- Python's `n.bit_length()` for non-negative `n`, via a structural fuel
recursion (fuel `n` suffices since `n / 2 < n` for `n > 0`). -/
def bitLengthAux : Nat → Nat → Nat
  | 0, _ => 0
  | fuel + 1, n => if n = 0 then 0 else bitLengthAux fuel (n / 2) + 1

/-- `bit_length n` = Python `n.bit_length()` (number of binary digits). -/
def bit_length (n : Nat) : Nat := bitLengthAux n n

theorem bitLengthAux_fuel {f1 f2 n : Nat} (h1 : n ≤ f1) (h2 : n ≤ f2) :
    bitLengthAux f1 n = bitLengthAux f2 n := by
  induction f1 generalizing f2 n with
  | zero =>
    have : n = 0 := by omega
    subst this
    cases f2 <;> simp [bitLengthAux]
  | succ f ih =>
    cases Nat.eq_zero_or_pos n with
    | inl h0 =>
      subst h0
      cases f2 <;> simp [bitLengthAux]
    | inr hpos =>
      have hne : n ≠ 0 := by omega
      cases f2 with
      | zero => omega
      | succ g =>
        have hdiv : n / 2 < n := Nat.div_lt_self hpos (by decide)
        simp only [bitLengthAux, hne, if_false]
        rw [@ih g (n / 2) (by omega) (by omega)]

theorem bit_length_zero : bit_length 0 = 0 := rfl

theorem bit_length_pos_eq {n : Nat} (h : 0 < n) :
    bit_length n = bit_length (n / 2) + 1 := by
  cases n with
  | zero => omega
  | succ t =>
    show bitLengthAux (t + 1) (t + 1) = _
    have hdiv : (t + 1) / 2 < t + 1 := Nat.div_lt_self (by omega) (by decide)
    simp only [bitLengthAux, Nat.succ_ne_zero, if_false]
    rw [@bitLengthAux_fuel t ((t + 1) / 2) ((t + 1) / 2) (by omega) (by omega)]
    rfl

/-- Characterisation of `bit_length`: `bit_length m ≤ k ↔ m < 2 ^ k`. -/
theorem bit_length_le {m k : Nat} : bit_length m ≤ k ↔ m < 2 ^ k := by
  induction m using Nat.strong_induction_on generalizing k with
  | _ m ih =>
    cases Nat.eq_zero_or_pos m with
    | inl h0 =>
      subst h0
      simp [bit_length_zero, Nat.pos_pow_of_pos, Nat.two_pow_pos]
    | inr hpos =>
      rw [bit_length_pos_eq hpos]
      cases k with
      | zero =>
        simp only [Nat.pow_zero]
        omega
      | succ j =>
        have hlt : m / 2 < m := Nat.div_lt_self hpos (by decide)
        rw [Nat.succ_le_succ_iff, ih (m / 2) hlt]
        rw [Nat.pow_succ]
        constructor
        · intro h
          calc m < 2 * (m / 2) + 2 := by omega
            _ ≤ 2 * 2 ^ j := by omega
            _ = 2 ^ j * 2 := by ring
        · intro h
          have : m < 2 ^ j * 2 := h
          omega

/-- `n < 2 ^ bit_length n`. -/
theorem lt_two_pow_bit_length (n : Nat) : n < 2 ^ bit_length n :=
  bit_length_le.mp (Nat.le_refl _)

/-- `bit_length` is monotone. -/
theorem bit_length_mono {m n : Nat} (h : m ≤ n) : bit_length m ≤ bit_length n :=
  bit_length_le.mpr (Nat.lt_of_le_of_lt h (lt_two_pow_bit_length n))

/-- `1 <<< (n-1).bit_length()`, the rounding applied by `analyze` to every
area size (`ar.total_size = 1 << ar.adr_bits`). -/
def pow2round (n : Nat) : Nat := 1 <<< bit_length (n - 1)

theorem pow2round_eq_pow (n : Nat) : pow2round n = 2 ^ bit_length (n - 1) := by
  simp [pow2round, Nat.shiftLeft_eq]

theorem pow2round_pos (n : Nat) : 0 < pow2round n := by
  rw [pow2round_eq_pow]; exact Nat.two_pow_pos _

/-- The rounded size is at least the raw size. -/
theorem le_pow2round (n : Nat) : n ≤ pow2round n := by
  rw [pow2round_eq_pow]
  have := lt_two_pow_bit_length (n - 1)
  omega

/-- The rounded size is the least power of two ≥ the raw size. -/
theorem pow2round_min {n k : Nat} (h : n ≤ 2 ^ k) : pow2round n ≤ 2 ^ k := by
  rw [pow2round_eq_pow]
  have hk := Nat.two_pow_pos k
  exact Nat.pow_le_pow_right (by decide) (bit_length_le.mpr (by omega))

/-- Monotonicity of the rounding. -/
theorem pow2round_mono {m n : Nat} (h : m ≤ n) : pow2round m ≤ pow2round n := by
  rw [pow2round_eq_pow, pow2round_eq_pow]
  exact Nat.pow_le_pow_right (by decide) (bit_length_mono (by omega))

/-- Among powers of two, ≤ is divisibility. -/
theorem pow2_dvd_of_le {a b : Nat} (h : a ≤ b) : (2 ^ a : Nat) ∣ 2 ^ b :=
  pow_dvd_pow 2 h

theorem pow2round_dvd_of_le {m n : Nat} (h : m ≤ n) :
    pow2round m ∣ pow2round n := by
  rw [pow2round_eq_pow, pow2round_eq_pow]
  exact pow2_dvd_of_le (bit_length_mono (by omega))

/-! ## Input declarations (the XML nodes consumed by the constructors)

A `FieldDecl` is a `<field>` node, a `RegDecl` a `<creg>`/`<sreg>` node, a
`SubblkDecl` a `<subblock>` node.  Optional XML attributes (`el.get(k, d)`)
are `Option`-valued here, with the source's defaults applied where the
source applies them. -/

structure FieldDecl where
  fname : String
  width : Nat
  ftype : Option String
  deriving DecidableEq, Repr

structure RegDecl where
  rname : String
  rtype : Option String
  reps : Option Nat
  ack : Option Nat
  stb : Option Nat
  fields : List FieldDecl
  deriving DecidableEq, Repr

structure SubblkDecl where
  btype : String
  sname : Option String
  reps : Option Nat
  deriving DecidableEq, Repr

/-- One child node of a `<block>` node (dispatch on `child.tag` in
`wb_block.__init__`; an unknown tag raises, which the inductive rules out
at the input-schema level). -/
inductive BlockChild where
  | creg (d : RegDecl)
  | sreg (d : RegDecl)
  | subblock (d : SubblkDecl)
  deriving DecidableEq, Repr

/-! ## The data model (classes `wb_field`, `wb_reg`, `wb_area`, `wb_block`) -/

structure wb_field where
  name : String
  lsb : Nat
  size : Nat
  /-- `msb = lsb + size - 1`; `Int` because a zero-width field yields
  `msb = lsb - 1`, which is `-1` at `lsb = 0` in Python. -/
  msb : Int
  ftype : String
  deriving DecidableEq, Repr

/-- `wb_field.__init__(fl, lsb)`. -/
def wb_field.init (fl : FieldDecl) (lsb : Nat) : wb_field :=
  { name := fl.fname
    lsb := lsb
    size := fl.width
    msb := (lsb : Int) + fl.width - 1
    ftype := fl.ftype.getD "std_logic_vector" }

structure wb_reg where
  regtype : String
  rtype : String
  base : Nat
  size : Nat
  name : String
  ack : Nat
  stb : Nat
  fields : List wb_field
  deriving DecidableEq, Repr

/-- The field-reading loop of `wb_reg.__init__`: starting from bit offset
`free_bit`, create each `wb_field`, advance `free_bit` by its width and
raise once the offset exceeds 32 bits. -/
def readFields (rname : String) : List FieldDecl → Nat →
    Except String (List wb_field)
  | [], _ => .ok []
  | fl :: rest, free_bit =>
    let fdef := wb_field.init fl free_bit
    let free_bit' := free_bit + fdef.size
    if free_bit' > 32 then
      .error ("Total width of fields in register " ++ rname ++
        " is above 32-bits")
    else
      match readFields rname rest free_bit' with
      | .ok fs => .ok (fdef :: fs)
      | .error e => .error e

/-- `wb_reg.__init__(el, adr)` (the node's tag is passed explicitly, the
caller dispatched on it). -/
def wb_reg.init (tag : String) (el : RegDecl) (adr : Nat) :
    Except String wb_reg :=
  match readFields el.rname el.fields 0 with
  | .error e => .error e
  | .ok fs =>
    .ok { regtype := tag
          rtype := el.rtype.getD "std_logic_vector"
          base := adr
          size := el.reps.getD 1
          name := el.rname
          ack := el.ack.getD 0
          stb := el.stb.getD 0
          fields := fs }

structure wb_area where
  /-- `sblk.get('name')` can be absent, hence `Option`. -/
  name : Option String
  size : Nat
  /-- The referenced block (`None` for the local-register area).  Python
  stores the object reference; the registry being keyed by name, we store
  the block's name and look it up in the registry where Python would
  dereference. -/
  obj : Option String
  adr : Nat
  mask : Nat
  total_size : Nat
  reps : Nat
  /-- set dynamically by `analyze` -/
  adr_bits : Option Nat
  /-- set dynamically by `gen_vhdl` -/
  first_port : Option Nat
  /-- set dynamically by `gen_vhdl` -/
  last_port : Option Nat
  deriving DecidableEq, Repr

/-- `wb_area.__init__(size, name, obj, reps)`. -/
def wb_area.init (size : Nat) (name : Option String) (obj : Option String)
    (reps : Nat) : wb_area :=
  { name := name, size := size, obj := obj, adr := 0, mask := 0
    total_size := 0, reps := reps
    adr_bits := none, first_port := none, last_port := none }

/-- `wb_area.sort_key`. -/
def wb_area.sort_key (a : wb_area) : Nat := a.size

structure wb_block where
  name : String
  /-- `templ_dict`: a Python dict `str → str`; insertion-ordered assoc
  list. -/
  templ_dict : List (String × String)
  areas : List wb_area
  regs : List wb_reg
  free_reg_addr : Nat
  subblks : List SubblkDecl
  /-- set dynamically by `analyze` -/
  addr_size : Option Nat
  /-- set dynamically by `analyze` -/
  adr_bits : Option Nat
  /-- set dynamically by `analyze` -/
  reg_base : Option Nat
  deriving DecidableEq, Repr

/-- The child loop of `wb_block.__init__`: registers are given consecutive
addresses from `free_reg_addr` in declaration order, subblock nodes are
collected.  Returns `(regs, free_reg_addr, subblks)`. -/
def regLoop : List BlockChild → Nat →
    Except String (List wb_reg × Nat × List SubblkDecl)
  | [], free => .ok ([], free, [])
  | .creg d :: rest, free =>
    match wb_reg.init "creg" d free with
    | .error e => .error e
    | .ok reg =>
      match regLoop rest (free + reg.size) with
      | .error e => .error e
      | .ok (rs, f, ss) => .ok (reg :: rs, f, ss)
  | .sreg d :: rest, free =>
    match wb_reg.init "sreg" d free with
    | .error e => .error e
    | .ok reg =>
      match regLoop rest (free + reg.size) with
      | .error e => .error e
      | .ok (rs, f, ss) => .ok (reg :: rs, f, ss)
  | .subblock s :: rest, free =>
    match regLoop rest free with
    | .error e => .error e
    | .ok (rs, f, ss) => .ok (rs, f, s :: ss)

/-- `wb_block.__init__(el)`: `free_reg_addr` starts at 2 (addresses 0 and 1
are reserved for the ID and version words). -/
def wb_block.init (name : String) (children : List BlockChild) :
    Except String wb_block :=
  match regLoop children 2 with
  | .error e => .error e
  | .ok (rs, free, ss) =>
    .ok { name := name
          templ_dict := []
          areas := []
          regs := rs
          free_reg_addr := free
          subblks := ss
          addr_size := none
          adr_bits := none
          reg_base := none }

/-! ## The registry of blocks (`blocks = {}`) and the allocator (`analyze`)

Python keeps a module-level dict `blocks` mapping type names to `wb_block`
objects and mutates the objects in place; we model it as an
insertion-ordered association list threaded through `analyze` as state. -/

/-- The process-wide registry `blocks`. -/
abbrev Registry := List (String × wb_block)

/-- `blocks[n]` (a missing key is a `KeyError`, i.e. `none`). -/
def lookupB (st : Registry) (n : String) : Option wb_block :=
  List.lookup n st

/-- In-place mutation of the object registered under `n` (Python object
semantics: the dict keeps pointing at the mutated object). -/
def setB : Registry → String → wb_block → Registry
  | [], _, _ => []
  | (k, v) :: rest, n, b =>
    if k = n then (k, b) :: setB rest n b else (k, v) :: setB rest n b

/-- Stable insertion used to realise Python's stable descending
`list.sort(key=wb_area.sort_key, reverse=True)`: the new element goes after
every already-placed element of ≥ key (ties keep original order). -/
def insertDesc (a : wb_area) : List wb_area → List wb_area
  | [] => [a]
  | b :: rest =>
    if a.sort_key ≤ b.sort_key then b :: insertDesc a rest
    else a :: b :: rest

/-- `self.areas.sort(key=wb_area.sort_key, reverse=True)`: stable sort by
raw size, descending. -/
def sortDesc (l : List wb_area) : List wb_area :=
  l.foldl (fun acc a => insertDesc a acc) []

/-- The placement loop of `analyze`: walk the sorted areas with a running
cursor `cur_base`, remember the cursor as `reg_base` at the local-register
area, assign `adr`, `adr_bits` and `total_size`, and advance the cursor by
the power-of-two `total_size`.  Returns the updated areas, the final
cursor and `reg_base`. -/
def areaLoop : Nat → Option Nat → List wb_area →
    List wb_area × Nat × Option Nat
  | cur, rb, [] => ([], cur, rb)
  | cur, rb, ar :: rest =>
    let rb' := if ar.obj = none then some cur else rb
    let bits := bit_length (ar.size - 1)
    let ts := 1 <<< bits
    let ar' := { ar with adr := cur, adr_bits := some bits, total_size := ts }
    let res := areaLoop (cur + ts) rb' rest
    (ar' :: res.1, res.2)

/-- The tail of `analyze` after all areas are gathered: sort, place, and
round the block's own span up to a power of two. -/
def finalizeBlock (b : wb_block) : wb_block :=
  let sorted := sortDesc b.areas
  let res := areaLoop 0 none sorted
  let cur_base := res.2.1
  let bits := bit_length (cur_base - 1)
  { b with areas := res.1
           reg_base := res.2.2
           addr_size := some (1 <<< bits)
           adr_bits := some bits }

/-- The subblock loop of `analyze`: look the referenced type up in the
registry, analyze it if its `areas` list is still empty, then append an
area of raw size `bl.addr_size * reps` to `self.areas`.  `recur` is the
recursive `analyze` call (instantiated with the remaining fuel). -/
def subblkLoop (recur : Registry → String → Option Registry)
    (bname : String) : List SubblkDecl → Registry → Option Registry
  | [], st => some st
  | sb :: rest, st =>
    match lookupB st sb.btype with
    | none => none
    | some bl =>
      let st1 := if bl.areas.isEmpty then recur st sb.btype else some st
      match st1 with
      | none => none
      | some st1 =>
        match lookupB st1 sb.btype with
        | none => none
        | some bl =>
          match bl.addr_size with
          | none => none
          | some bsize =>
            let reps := sb.reps.getD 1
            let addr_size := bsize * reps
            match lookupB st1 bname with
            | none => none
            | some self =>
              let st2 := setB st1 bname
                { self with areas := self.areas ++
                    [wb_area.init addr_size sb.sname (some sb.btype) reps] }
              subblkLoop recur bname rest st2

/-- `wb_block.analyze(self)`, with fuel bounding the recursion depth
through nested block types (Python would exhaust the stack, or crash with
an `AttributeError`, on a cyclic hierarchy). -/
def analyzeFuel : Nat → Registry → String → Option Registry
  | 0, _, _ => none
  | fuel + 1, st, bname =>
    match lookupB st bname with
    | none => none
    | some self =>
      let st1 := setB st bname
        { self with areas := self.areas ++
            [wb_area.init self.free_reg_addr (some "int_regs") none 1] }
      match subblkLoop (analyzeFuel fuel) bname self.subblks st1 with
      | none => none
      | some st2 =>
        match lookupB st2 bname with
        | none => none
        | some self2 => some (setB st2 bname (finalizeBlock self2))

/-! ## String plumbing of the emitter

`add_templ` splits its `value` with `re.findall(r'.*\n?', value)[:-1]`
(lines keeping their trailing newline, final empty chunk dropped) and
appends each chunk, prefixed with `indent` spaces, to the dictionary
entry. -/

/-- Split into chunks each ending in `'\n'` (kept), plus a final
newline-less chunk when the string does not end in `'\n'`; an empty string
yields `[]`.  This is `re.findall(r'.*\n?', value)[:-1]` on strings without
`'\r'`. -/
def splitLinesAux : List Char → List Char → List String
  | [], acc => if acc.isEmpty then [] else [String.mk acc.reverse]
  | c :: rest, acc =>
    if c = '\n' then
      String.mk (acc.reverse ++ ['\n']) :: splitLinesAux rest []
    else
      splitLinesAux rest (c :: acc)

def splitLines (s : String) : List String := splitLinesAux s.toList []

def templGet (d : List (String × String)) (k : String) : Option String :=
  List.lookup k d

/-- Python dict assignment: update the (unique) existing key, else append
the new key at the end (dicts are insertion-ordered). -/
def templSet : List (String × String) → String → String →
    List (String × String)
  | [], k, v => [(k, v)]
  | (k', v') :: rest, k, v =>
    if k' = k then (k', v) :: rest else (k', v') :: templSet rest k v

/-- `wb_block.add_templ(self, templ_key, value, indent)` acting on the
dictionary. -/
def addTemplD (d : List (String × String)) (key value : String)
    (indent : Nat) : List (String × String) :=
  let d := if (templGet d key).isNone then templSet d key "" else d
  let cur := (templGet d key).getD ""
  let app := String.join ((splitLines value).map
    (fun ln => String.mk (List.replicate indent ' ') ++ ln))
  templSet d key (cur ++ app)

def wb_block.add_templ (b : wb_block) (key value : String) (indent : Nat) :
    wb_block :=
  { b with templ_dict := addTemplD b.templ_dict key value indent }

/-- Binary digits of `n`, most significant first (`[]` for 0); fuel
recursion, fuel `n` suffices. -/
def natBinAux : Nat → Nat → List Char
  | 0, _ => []
  | f + 1, n =>
    if n = 0 then []
    else natBinAux f (n / 2) ++ [if n % 2 = 1 then '1' else '0']

/-- Python `format(n, "032b")`: binary, left-padded with zeros to at least
32 characters (wider numbers keep all their digits). -/
def pyFormat032b (n : Nat) : String :=
  let digs := if n = 0 then ['0'] else natBinAux n n
  String.mk (List.replicate (32 - digs.length) '0' ++ digs)

def hexDigitChar (n : Nat) : Char :=
  if n < 10 then Char.ofNat (48 + n) else Char.ofNat (97 + (n - 10))

def natHexAux : Nat → Nat → List Char
  | 0, _ => []
  | f + 1, n =>
    if n = 0 then [] else natHexAux f (n / 16) ++ [hexDigitChar (n % 16)]

/-- Python `hex(n)` for `n ≥ 0`: `0x` plus lowercase hex digits. -/
def pyHex (n : Nat) : String :=
  "0x" ++ String.mk (if n = 0 then ['0'] else natHexAux n n)

/-- Python `templ.format(**d)` restricted to the plain `{name}`
replacement fields that occur in this program's two templates (the
templates contain no escaped or stray braces).  A missing key is a
`KeyError`, i.e. `none`.  The second argument is `none` outside a
replacement field and `some acc` while scanning a field name. -/
def pyFormatAux (d : List (String × String)) :
    List Char → Option (List Char) → List Char → Option String
  | [], none, out => some (String.mk out.reverse)
  | [], some _, _ => none
  | c :: rest, none, out =>
    if c = '{' then pyFormatAux d rest (some []) out
    else pyFormatAux d rest none (c :: out)
  | c :: rest, some acc, out =>
    if c = '}' then
      match templGet d (String.mk acc.reverse) with
      | none => none
      | some v => pyFormatAux d rest none (v.toList.reverseAux out)
    else pyFormatAux d rest (some (c :: acc)) out

def pyFormat (templ : String) (d : List (String × String)) : Option String :=
  pyFormatAux d templ.toList none []

/-! ## The two output templates (`templ_pkg`, `templ_wb`) -/

/-- The `templ_pkg` template string of the source, transcribed byte for byte
(apostrophes written as `\x27`). -/
def templ_pkg : String :=
  "library ieee;\n" ++
  "\n" ++
  "use ieee.std_logic_1164.all;\n" ++
  "use ieee.numeric_std.all;\n" ++
  "\n" ++
  "library work;\n" ++
  "use work.wishbone_pkg.all;\n" ++
  "\n" ++
  "package {p_entity}_pkg is\n" ++
  "{p_package}\n" ++
  "end {p_entity}_pkg\n" ++
  "\n" ++
  "package_body {p_entity}_pkg is\n" ++
  "{p_package_body}\n" ++
  "end {p_entity}_pkg\n"

/-- The `templ_wb` template string of the source, transcribed byte for byte
(apostrophes written as `\x27`). -/
def templ_wb : String :=
  "--- This code is automatically generated by the addrgen_wb.py tool\n" ++
  "--- Please don\x27t edit it manaully, unless you really have to do it.\n" ++
  "\n" ++
  "library ieee;\n" ++
  "use ieee.std_logic_1164.all;\n" ++
  "use ieee.numeric_std.all;\n" ++
  "library work;\n" ++
  "use work.wishbone_pkg.all;\n" ++
  "use work.{p_entity}_pkg.all\n" ++
  "\n" ++
  "entity {p_entity} is\n" ++
  "  generic (\n" ++
  "    base_addr : unsigned(31 downto 0);\n" ++
  "    valid_bits : integer := {valid_bits};\n" ++
  "  );\n" ++
  "  port (\n" ++
  "    rst_n_i : in std_logic;\n" ++
  "    clk_sys_i : in std_logic\n" ++
  "    slave_i : t_wishbone_slave_in;\n" ++
  "    slave_o : t_wishbone_slave_out;\n" ++
  "{subblk_busses}\n" ++
  "{signal_ports}\n" ++
  "    );\n" ++
  "\n" ++
  "end wb_test_top;\n" ++
  "\n" ++
  "architecture gener of {p_entity} is\n" ++
  "{signal_decls}\n" ++
  "  -- Internal WB declaration\n" ++
  "  signal int_regs_wb_s_o : t_wishbone_slave_out;\n" ++
  "  signal int_regs_wb_s_i : t_wishbone_slave_in;\n" ++
  "  signal int_addr : std_logic_vector({valid_bits}-1 downto 0);\n" ++
  "  signal wb_s_out : t_wishbone_slave_out_array(0 to {nof_subblks});\n" ++
  "  signal wb_s_in : t_wishbone_slave_in_array(0 to {nof_subblks});\n" ++
  "\n" ++
  "  -- Constants\n" ++
  "  constant block_id_addr : std_logic_vector({valid_bits}-1 downto 0) := (others => \x270\x27);\n" ++
  "  constant block_ver_addr : std_logic_vector({valid_bits}-1 downto 0) := (0=>\x271\x27, \x27others => \x270\x27);\n" ++
  "\n" ++
  "begin\n" ++
  "  int_addr <= int_regs_wb_s_i.adr({valid_bits}-1 downto 0);\n" ++
  "\n" ++
  "-- Main crossbar \n" ++
  "  xwb_crossbar_1: entity work.xwb_crossbar\n" ++
  "  generic map (\n" ++
  "     g_num_masters => 1,\n" ++
  "     g_num_slaves  => 1+nof_subblks,\n" ++
  "     g_registered  => {p_registered},\n" ++
  "     g_address     => {p_addresses},\n" ++
  "     g_mask        => {p_masks})\n" ++
  "  port map (\n" ++
  "     clk_sys_i => clk_sys_i,\n" ++
  "     rst_n_i   => rst_n_i,\n" ++
  "     slave_i   => slave_i,\n" ++
  "     slave_o   => slave_o,\n" ++
  "     master_i  => wb_s_out,\n" ++
  "     master_o  => wb_s_in,\n" ++
  "    sdb_sel_o => open);\n" ++
  "\n" ++
  "-- Process for register access\n" ++
  "  process(clk_sys_i)\n" ++
  "  begin\n" ++
  "    if rising_edge(clk_sys_i) then\n" ++
  "      if rst_n_i = \x270\x27 then\n" ++
  "        -- Reset of the core\n" ++
  "      else\n" ++
  "        -- Normal operation\n" ++
  "        if (int_regs_wb_s_i.cyc = \x271\x27) and (int_regs_wb_s_i.stb = \x271\x27) then\n" ++
  "          -- Access, now we handle consecutive registers\n" ++
  "          case int_addr is\n" ++
  "{register_access}\n" ++
  "          when block_id_addr =>\n" ++
  "             int_regs_wb_s_o.dat <= {block_id};\n" ++
  "             int_regs__wb_s_o.ack <= \x271\x27;\n" ++
  "          when block_ver_addr =>\n" ++
  "             int_regs_wb_s_o.dat <= {block_ver};\n" ++
  "             int_regs_wb_s_o.ack <= \x271\x27;\n" ++
  "          when others =>\n" ++
  "             int_regs_wb_s_o.dat <= x\"A5A5A5A5\";\n" ++
  "             int_regs_wb_s_o.ack <= \x271\x27;\n" ++
  "          end case;\n" ++
  "        end if;\n" ++
  "      end if;\n" ++
  "    end if;\n" ++
  "  end process;\n" ++
  "{cont_assigns}\n" ++
  "end architecture;\n"

/-! ## The emitter (`wb_reg.gen_vhdl`, `wb_block.gen_vhdl`)

`gen_vhdl` mutates the block it emits: every generated text fragment is
appended to `templ_dict` via `add_templ`, and the area loop stores
`first_port`/`last_port` on the areas.  The two written files are returned
as the pair of rendered template strings. -/

/-- The `p_package` text a register contributes (local variable `dt` of
`wb_reg.gen_vhdl` at the time of `parent.add_templ('p_package', dt, 0)`). -/
def wb_reg.pkgDecl (r : wb_reg) : String :=
  let tname := "t_" ++ r.name
  let dt :=
    if r.fields.length = 0 then
      "subtype " ++ tname ++ " is " ++ r.rtype ++ "(31 downto 0);\n"
    else
      "type " ++ tname ++ " is record\n" ++
      String.join (r.fields.map fun fl =>
        "  " ++ fl.name ++ ":" ++ fl.ftype ++ "(" ++
          toString ((fl.size : Int) - 1) ++ " downto 0);\n") ++
      "end record;\n\n" ++
      "function stlv2" ++ tname ++ "(x : std_logic_vector) return " ++
        tname ++ ";\n" ++
      "function " ++ tname ++ "2stlv(x : " ++ tname ++
        ") return std_logic_vector;\n"
  if r.size > 1 then
    dt ++ "type " ++ tname ++ "_array is array(0 to " ++
      toString (r.size - 1) ++ ") of " ++ tname ++ ";\n"
  else dt

/-- The `p_package_body` text a register contributes (local variable `dtb`
of `wb_reg.gen_vhdl`): the two conversion-function bodies. -/
def wb_reg.pkgBody (r : wb_reg) : String :=
  let tname := "t_" ++ r.name
  if r.fields.length = 0 then ""
  else
    "function stlv2" ++ tname ++ "(x : std_logic_vector) return " ++
      tname ++ " is\n" ++
    "variable res : " ++ tname ++ ";\n" ++
    "begin\n" ++
    String.join (r.fields.map fun fl =>
      "  res." ++ fl.name ++ " := " ++ fl.ftype ++ "(x(" ++
        toString fl.msb ++ " downto " ++ toString fl.lsb ++ "));\n") ++
    "  return res;\n" ++
    "end stlv2" ++ tname ++ ";\n\n" ++
    "function " ++ tname ++ "2stlv(x : " ++ tname ++
      ") return std_logic_vector is\n" ++
    "variable res : std_logic_vector;\n" ++
    "begin\n" ++
    "  res := (others => \x270\x27);\n" ++
    String.join (r.fields.map fun fl =>
      "  res(" ++ toString fl.msb ++ " downto " ++ toString fl.lsb ++
        ") := std_logic_vector(x." ++ fl.name ++ "));\n") ++
    "  return res;\n" ++
    "end " ++ tname ++ "2stlv;\n\n"

/-- The entity-port declaration a register contributes
(`parent.add_templ('signal_ports', dt, 4)`). -/
def wb_reg.portDecl (r : wb_reg) : String :=
  let tname := "t_" ++ r.name
  let sfx := if r.regtype = "creg" then "_o" else "_i"
  let sdir := if r.regtype = "creg" then "out " else "in "
  if r.size = 1 then
    r.name ++ sfx ++ " : " ++ sdir ++ " " ++ tname ++ ";\n"
  else
    r.name ++ sfx ++ " : " ++ sdir ++ " " ++ tname ++ "_array;\n"

/-- The decode case arm emitted for instance `i` of register `r`
(`parent.add_templ('register_access', dt, 10)`); the decode key is
`format(self.base+i, "032b")`. -/
def wb_reg.accessArm (r : wb_reg) (i : Nat) : String :=
  let ind := if r.size > 1 then "(" ++ toString i ++ ")" else ""
  let conv_fun :=
    if r.fields.length = 0 then "std_logic_vector"
    else "t_" ++ r.name ++ "2stlv"
  let iconv_fun :=
    if r.fields.length = 0 then r.rtype else "stlv2t_" ++ r.name
  let dt := "when \"" ++ pyFormat032b (r.base + i) ++ "\" => -- " ++
    pyHex (r.base + i) ++ "\n"
  let dt := dt ++
    (if r.regtype = "sreg" then
      "   int_regs_wb_s_o.dat <= " ++ conv_fun ++ "(" ++ r.name ++
        "_i" ++ ind ++ ");\n"
    else
      "   int_regs_wb_s_o.dat <= " ++ conv_fun ++ "(int_" ++ r.name ++
        "_o" ++ ind ++ ");\n")
  dt ++
    (if r.regtype = "creg" then
      "   if int_regs_wb_s_i.we = \x271\x27 then\n" ++
      "     int_" ++ r.name ++ "_o" ++ ind ++ ") <= " ++ iconv_fun ++
        "(int_regs_wb_s_i.dat);\n" ++
      "   end if;\n"
    else "")

/-- `wb_reg.gen_vhdl(self, parent)`. -/
def wb_reg.gen_vhdl (r : wb_reg) (parent : wb_block) : wb_block :=
  let parent := parent.add_templ "p_package" r.pkgDecl 0
  let parent := parent.add_templ "p_package_body" r.pkgBody 0
  let parent := parent.add_templ "signal_ports" r.portDecl 4
  (List.range r.size).foldl
    (fun p i => p.add_templ "register_access" (r.accessArm i) 10) parent

/-- State of the area loop in `wb_block.gen_vhdl`.  The Python lists
`ar_addresses` and `ar_adr_bits` grow in lockstep (one entry per port), so
they are kept as one list of pairs, and `n_ports` is the running port
counter. -/
structure GenAreaState where
  blk : wb_block
  newAreas : List wb_area
  ports : List (Nat × Nat)
  n_ports : Nat
  deriving DecidableEq, Repr

/-- One iteration of the area loop of `wb_block.gen_vhdl`.  Reading an
attribute that was never set (`ar.adr_bits`, `ar.obj.addr_size` on `None`)
is a Python error, i.e. `none`; `ar.obj` dereference is a registry
lookup. -/
def genArea (st : Registry) (s : GenAreaState) (ar : wb_area) :
    Option GenAreaState :=
  if ar.reps = 1 then
    let ar' := { ar with first_port := some s.n_ports,
                         last_port := some s.n_ports }
    match ar.adr_bits with
    | none => none
    | some bits =>
      let ports := s.ports ++ [(ar.adr, bits)]
      match ar.name with
      | none => none
      | some nm =>
        let blk1 :=
          if ar.obj.isSome then
            s.blk.add_templ "subblk_busses"
              (nm ++ "_wb_s_o : out t_wishbone_slave_out;\n" ++
               nm ++ "_wb_s_i : in t_wishbone_slave_in;\n") 4
          else s.blk
        let dt := "wb_s_o(" ++ toString s.n_ports ++ ") <= " ++ nm ++
          "_wb_s_i;\n" ++ nm ++ "_wb_s_i  <= " ++ "wb_s_o(" ++
          toString s.n_ports ++ ");\n"
        let blk2 := blk1.add_templ "cont_assigns" dt 4
        some { blk := blk2, newAreas := s.newAreas ++ [ar'],
               ports := ports, n_ports := s.n_ports + 1 }
  else
    let fp := s.n_ports
    let lp := s.n_ports + ar.reps - 1
    let ar' := { ar with first_port := some fp, last_port := some lp }
    match ar.name with
    | none => none
    | some nm =>
      let blk1 := s.blk.add_templ "subblk_busses"
        (nm ++ "_wb_s_o : out t_wishbone_slave_out_array(" ++
          toString fp ++ " to " ++ toString lp ++ ");\n" ++
         nm ++ "_wb_s_i : in t_wishbone_slave_in_array(" ++
          toString fp ++ " to " ++ toString lp ++ ");\n") 4
      match ar.obj with
      | none => none
      | some oname =>
        match lookupB st oname with
        | none => none
        | some ob =>
          match ob.addr_size, ob.adr_bits with
          | some osize, some obits =>
            let res := (List.range ar.reps).foldl
              (fun (acc : wb_block × List (Nat × Nat) × Nat × Nat) i =>
                let ports' := acc.2.1 ++ [(acc.2.2.1, obits)]
                let base' := acc.2.2.1 + osize
                -- the first `dt =` of the source is overwritten by the
                -- second before use, so only the second line is emitted
                let dt := nm ++ "_wb_s_i(" ++ toString i ++ ")  <= " ++
                  "wb_s_o(" ++ toString acc.2.2.2 ++ ");\n"
                (acc.1.add_templ "cont_assigns" dt 4, ports', base',
                  acc.2.2.2 + 1))
              (blk1, s.ports, ar.adr, fp)
            some { blk := res.1, newAreas := s.newAreas ++ [ar'],
                   ports := res.2.1, n_ports := fp + ar.reps }
          | _, _ => none

/-- Rendering of the two output files from the filled template dictionary
(`templ_wb.format(**d)`, `templ_pkg.format(**d)`); a missing key is a
`KeyError`. -/
def renderPair (d : List (String × String)) : Option (String × String) :=
  match pyFormat templ_wb d, pyFormat templ_pkg d with
  | some fwb, some fpkg => some (fwb, fpkg)
  | _, _ => none

/-- The register pass of `gen_vhdl`: the five initial (key-creating)
`add_templ` calls followed by `reg.gen_vhdl` for every register. -/
def genStage1 (b : wb_block) : wb_block :=
  let b := b.add_templ "p_package" "" 0
  let b := b.add_templ "p_package_body" "" 0
  let b := b.add_templ "signal_decls" "" 0
  let b := b.add_templ "register_access" "" 0
  let b := b.add_templ "subblk_busses" "" 0
  b.regs.foldl (fun p r => wb_reg.gen_vhdl r p) b

/-- The area pass of `gen_vhdl`. -/
def genStage2 (st : Registry) (b1 : wb_block) : Option GenAreaState :=
  List.foldlM (genArea st)
    { blk := b1, newAreas := [], ports := [], n_ports := 0 } b1.areas

/-- The address vector literal of `gen_vhdl` (`adrs`). -/
def adrsVec (ports : List (Nat × Nat)) : String :=
  "(" ++ String.intercalate ","
    (ports.map fun p => "\"" ++ pyFormat032b p.1 ++ "\"") ++ ");"

/-- The mask vector literal of `gen_vhdl` (`masks`);
`mask = (1 << adr_bits) - 1` per port. -/
def masksVec (ports : List (Nat × Nat)) : String :=
  "(" ++ String.intercalate ","
    (ports.map fun p =>
      "\"" ++ pyFormat032b ((1 <<< p.2) - 1) ++ "\"") ++ ");"

/-- The block after the area pass and the seven subsequent `add_templ`
calls of `gen_vhdl` (its mutated `areas` list installed). -/
def genFinishBlk (s : GenAreaState) : wb_block :=
  let b := { s.blk with areas := s.newAreas }
  let b := b.add_templ "block_id" "x\"00001234\"" 0
  let b := b.add_templ "block_ver" "x\"12344321\"" 0
  let b := b.add_templ "p_addresses" (adrsVec s.ports) 0
  let b := b.add_templ "p_masks" (masksVec s.ports) 0
  let b := b.add_templ "p_registered" "false" 0
  let b := b.add_templ "nof_subblks" (toString s.n_ports) 0
  b.add_templ "p_entity" (b.name ++ "_wb") 0

/-- The final pass of `gen_vhdl`: the remaining `add_templ` calls
(failing with an `AttributeError` when `adr_bits` was never set, i.e. the
block is unanalyzed) and the rendering of the two files. -/
def genFinish (s : GenAreaState) : Option (wb_block × String × String) :=
  match (genFinishBlk s).adr_bits with
  | none => none
  | some bits =>
    let b := (genFinishBlk s).add_templ "valid_bits" (toString bits) 0
    match renderPair b.templ_dict with
    | some (fwb, fpkg) => some (b, fwb, fpkg)
    | none => none

/-- `wb_block.gen_vhdl(self)`: emit the block, returning the mutated block
and the contents of the two written files `<name>_wb.vhd` and
`<name>_pkg.vhd`.  The three passes are `genStage1` (register pass),
`genStage2` (area pass) and `genFinish` (vectors, final template entries
and file rendering). -/
def wb_block.gen_vhdl (st : Registry) (b : wb_block) :
    Option (wb_block × String × String) :=
  match genStage2 st (genStage1 b) with
  | none => none
  | some s => genFinish s

/-! ## Registry lemmas -/

theorem lookupB_setB_self {st : Registry} {n : String} {b c : wb_block}
    (h : lookupB st n = some c) : lookupB (setB st n b) n = some b := by
  induction st with
  | nil => simp [lookupB, List.lookup] at h
  | cons p rest ih =>
    obtain ⟨k, v⟩ := p
    by_cases hk : k = n
    · subst hk
      simp [lookupB, setB, List.lookup]
    · have hne : (n == k) = false := by
        simp [BEq.beq]
        exact fun e => hk e.symm
      simp only [lookupB, List.lookup, hne] at h
      simp only [setB, if_neg hk, lookupB, List.lookup, hne]
      exact ih h

theorem lookupB_setB_ne {st : Registry} {n m : String} {b : wb_block}
    (h : m ≠ n) : lookupB (setB st n b) m = lookupB st m := by
  induction st with
  | nil => simp [lookupB, setB]
  | cons p rest ih =>
    obtain ⟨k, v⟩ := p
    by_cases hk : k = n
    · subst hk
      have hne : (m == k) = false := by
        simp [BEq.beq]
        exact h
      simp only [setB, if_pos rfl, lookupB, List.lookup, hne]
      exact ih
    · simp only [setB, if_neg hk, lookupB, List.lookup]
      by_cases hm : m = k
      · subst hm; simp
      · have hne : (m == k) = false := by
          simp [BEq.beq]; exact hm
        simp only [hne]
        exact ih

theorem lookupB_setB_isSome {st : Registry} {n m : String} {b : wb_block} :
    (lookupB (setB st n b) m).isSome = (lookupB st m).isSome := by
  by_cases h : m = n
  · subst h
    cases hc : lookupB st m with
    | none =>
      have : lookupB (setB st m b) m = none := by
        induction st with
        | nil => simp [lookupB, setB]
        | cons p rest ih =>
          obtain ⟨k, v⟩ := p
          by_cases hk : k = m
          · subst hk
            simp [lookupB, List.lookup] at hc
          · have hne : (m == k) = false := by simp [BEq.beq]; exact fun e => hk e.symm
            simp only [lookupB, List.lookup, hne] at hc
            simp only [setB, if_neg (fun e => hk e), lookupB, List.lookup, hne]
            exact ih hc
      simp [this, hc]
    | some c => simp [lookupB_setB_self (b := b) hc, hc]
  · rw [lookupB_setB_ne h]

/-! ## Lemmas about the stable descending sort -/

theorem mem_insertDesc {a x : wb_area} {l : List wb_area} :
    x ∈ insertDesc a l ↔ x = a ∨ x ∈ l := by
  induction l with
  | nil => simp [insertDesc]
  | cons b rest ih =>
    simp only [insertDesc]
    by_cases h : a.sort_key ≤ b.sort_key
    · simp only [if_pos h, List.mem_cons, ih]
      tauto
    · simp only [if_neg h, List.mem_cons]

theorem insertDesc_perm (a : wb_area) (l : List wb_area) :
    List.Perm (insertDesc a l) (a :: l) := by
  induction l with
  | nil => exact List.Perm.refl _
  | cons b rest ih =>
    simp only [insertDesc]
    by_cases h : a.sort_key ≤ b.sort_key
    · simp only [if_pos h]
      exact (List.Perm.cons b ih).trans (List.Perm.swap a b rest)
    · simp [if_neg h]

/-- The comparator of the descending sort. -/
def sizeGE (x y : wb_area) : Prop := y.sort_key ≤ x.sort_key

theorem insertDesc_sorted {a : wb_area} {l : List wb_area}
    (h : List.Pairwise sizeGE l) :
    List.Pairwise sizeGE (insertDesc a l) := by
  induction l with
  | nil => simp [insertDesc]
  | cons b rest ih =>
    rcases List.pairwise_cons.mp h with ⟨hb, hrest⟩
    simp only [insertDesc]
    by_cases hab : a.sort_key ≤ b.sort_key
    · simp only [if_pos hab]
      refine List.pairwise_cons.mpr ⟨?_, ih hrest⟩
      intro x hx
      rcases mem_insertDesc.mp hx with rfl | hx
      · exact hab
      · exact hb x hx
    · simp only [if_neg hab]
      refine List.pairwise_cons.mpr ⟨?_, h⟩
      intro x hx
      rcases List.mem_cons.mp hx with rfl | hx
      · exact Nat.le_of_not_le hab
      · exact Nat.le_trans (hb x hx) (Nat.le_of_not_le hab)

theorem sortDesc_core (l acc : List wb_area) (h : List.Pairwise sizeGE acc) :
    List.Pairwise sizeGE (l.foldl (fun acc a => insertDesc a acc) acc) ∧
    List.Perm (l.foldl (fun acc a => insertDesc a acc) acc) (acc ++ l) := by
  induction l generalizing acc with
  | nil => exact ⟨by simpa using h, by simp⟩
  | cons a rest ih =>
    have h' := insertDesc_sorted (a := a) h
    obtain ⟨hs, hp⟩ := ih (insertDesc a acc) h'
    refine ⟨hs, hp.trans ?_⟩
    refine ((insertDesc_perm a acc).append_right rest).trans ?_
    simpa using (@List.perm_middle _ a acc rest).symm

theorem sortDesc_sorted (l : List wb_area) :
    List.Pairwise sizeGE (sortDesc l) :=
  (sortDesc_core l [] (by simp)).1

theorem sortDesc_perm (l : List wb_area) : List.Perm (sortDesc l) l := by
  have := (sortDesc_core l [] (by simp)).2
  simpa using this

theorem mem_sortDesc {x : wb_area} {l : List wb_area} :
    x ∈ sortDesc l ↔ x ∈ l :=
  (sortDesc_perm l).mem_iff

theorem sortDesc_length (l : List wb_area) :
    (sortDesc l).length = l.length :=
  (sortDesc_perm l).length_eq

/-- Stability: among areas of one raw size, the sort keeps declaration
order (filter at each key is unchanged). -/
theorem filter_insertDesc {a : wb_area} {l : List wb_area} (k : Nat)
    (h : List.Pairwise sizeGE l) :
    (insertDesc a l).filter (fun x => x.sort_key = k) =
      l.filter (fun x => x.sort_key = k) ++
        (if a.sort_key = k then [a] else []) := by
  induction l with
  | nil =>
    by_cases hk : a.sort_key = k <;> simp [insertDesc, hk]
  | cons b rest ih =>
    rcases List.pairwise_cons.mp h with ⟨hb, hrest⟩
    simp only [insertDesc]
    by_cases hab : a.sort_key ≤ b.sort_key
    · simp only [if_pos hab, List.filter_cons]
      by_cases hbk : b.sort_key = k
      · simp only [decide_eq_true_eq, hbk, if_pos rfl]
        rw [ih hrest]
        simp
      · simp only [decide_eq_true_eq, hbk, if_neg hbk]
        exact ih hrest
    · have hba : b.sort_key < a.sort_key := Nat.lt_of_not_le hab
      simp only [if_neg hab]
      by_cases hak : a.sort_key = k
      · -- every element of b :: rest has key ≤ b.key < a.key = k,
        -- so the filter of b :: rest at k is empty
        have hemp : List.filter (fun x => decide (x.sort_key = k))
            (b :: rest) = [] := by
          rw [List.filter_eq_nil_iff]
          intro x hx
          simp only [decide_eq_true_eq]
          rcases List.mem_cons.mp hx with rfl | hx
          · omega
          · have := hb x hx
            simp only [sizeGE] at this
            omega
        simp [List.filter_cons, hak, hemp]
      · simp [List.filter_cons, hak]

theorem sortDesc_stable_core (l acc : List wb_area) (k : Nat)
    (h : List.Pairwise sizeGE acc) :
    (l.foldl (fun acc a => insertDesc a acc) acc).filter
        (fun x => x.sort_key = k) =
      acc.filter (fun x => x.sort_key = k) ++
        l.filter (fun x => x.sort_key = k) := by
  induction l generalizing acc with
  | nil => simp
  | cons a rest ih =>
    have h' := insertDesc_sorted (a := a) h
    simp only [List.foldl_cons]
    rw [ih (insertDesc a acc) h', filter_insertDesc k h]
    by_cases hak : a.sort_key = k <;> simp [List.filter_cons, hak]

/-- Stability of the sort: for every raw size `k`, the areas of size `k`
appear in the sorted list in their original relative order. -/
theorem sortDesc_stable (l : List wb_area) (k : Nat) :
    (sortDesc l).filter (fun x => x.sort_key = k) =
      l.filter (fun x => x.sort_key = k) := by
  have := sortDesc_stable_core l [] k (by simp)
  simpa using this

/-! ## Lemmas about the placement loop `areaLoop` -/

/-- Elementwise description of the placement: every field except `adr`,
`adr_bits`, `total_size` is kept, `adr_bits` becomes
`(size-1).bit_length()` and `total_size` its power of two. -/
theorem areaLoop_forall2 (c : Nat) (rb : Option Nat) (l : List wb_area) :
    List.Forall₂ (fun a0 a =>
      a.name = a0.name ∧ a.size = a0.size ∧ a.obj = a0.obj ∧
      a.mask = a0.mask ∧ a.reps = a0.reps ∧
      a.adr_bits = some (bit_length (a0.size - 1)) ∧
      a.total_size = pow2round a0.size ∧
      a.first_port = a0.first_port ∧ a.last_port = a0.last_port)
      l (areaLoop c rb l).1 := by
  induction l generalizing c rb with
  | nil => exact List.Forall₂.nil
  | cons a rest ih =>
    refine List.Forall₂.cons ?_ (ih _ _)
    refine ⟨rfl, rfl, rfl, rfl, rfl, rfl, rfl, rfl, rfl⟩

theorem areaLoop_length (c : Nat) (rb : Option Nat) (l : List wb_area) :
    (areaLoop c rb l).1.length = l.length :=
  ((areaLoop_forall2 c rb l).length_eq).symm

/-- The final cursor is the start plus the sum of the rounded sizes. -/
theorem areaLoop_cursor (c : Nat) (rb : Option Nat) (l : List wb_area) :
    (areaLoop c rb l).2.1 = c + (l.map (fun a => pow2round a.size)).sum := by
  induction l generalizing c rb with
  | nil => simp [areaLoop]
  | cons a rest ih =>
    show (areaLoop (c + (1 <<< bit_length (a.size - 1))) _ rest).2.1 = _
    rw [ih]
    simp [pow2round]
    omega

/-- Every placed area sits at or above the starting cursor. -/
theorem areaLoop_adr_lb (c : Nat) (rb : Option Nat) (l : List wb_area) :
    ∀ a ∈ (areaLoop c rb l).1, c ≤ a.adr := by
  induction l generalizing c rb with
  | nil => intro a h; simp [areaLoop] at h
  | cons a rest ih =>
    intro x hx
    rcases List.mem_cons.mp hx with rfl | hx
    · exact Nat.le_refl _
    · have := ih (c + (1 <<< bit_length (a.size - 1))) _ x hx
      exact Nat.le_trans (Nat.le_add_right c _) this

/-- Alignment: if the raw sizes are descending along the list and the
starting cursor is a multiple of every rounded size in the list, each
placed area's base address is a multiple of its rounded size. -/
theorem areaLoop_aligned (c : Nat) (rb : Option Nat) (l : List wb_area)
    (hs : List.Pairwise sizeGE l)
    (hc : ∀ a ∈ l, pow2round a.size ∣ c) :
    ∀ a ∈ (areaLoop c rb l).1, a.adr % a.total_size = 0 := by
  induction l generalizing c rb with
  | nil => intro a h; simp [areaLoop] at h
  | cons a rest ih =>
    rcases List.pairwise_cons.mp hs with ⟨ha, hrest⟩
    intro x hx
    rcases List.mem_cons.mp hx with rfl | hx
    · show c % pow2round a.size = 0
      obtain ⟨k, hk⟩ := hc a (List.mem_cons_self a rest)
      rw [hk]
      exact Nat.mul_mod_right _ _
    · refine ih (c + (1 <<< bit_length (a.size - 1))) _ hrest ?_ x hx
      intro b hb
      have hdvd1 : pow2round b.size ∣ c := hc b (List.mem_cons_of_mem a hb)
      have hdvd2 : pow2round b.size ∣ pow2round a.size :=
        pow2round_dvd_of_le (ha b hb)
      have : pow2round b.size ∣ (1 <<< bit_length (a.size - 1)) := hdvd2
      exact Nat.dvd_add hdvd1 this

/-- The placed address ranges `[adr, adr + total_size)` are consecutive,
hence pairwise disjoint. -/
theorem areaLoop_disjoint (c : Nat) (rb : Option Nat) (l : List wb_area) :
    List.Pairwise (fun x y => x.adr + x.total_size ≤ y.adr)
      (areaLoop c rb l).1 := by
  induction l generalizing c rb with
  | nil => simp [areaLoop]
  | cons a rest ih =>
    refine List.pairwise_cons.mpr ⟨?_, ih _ _⟩
    intro x hx
    have := areaLoop_adr_lb (c + (1 <<< bit_length (a.size - 1)))
      (if a.obj = none then some c else rb) rest x hx
    show c + pow2round a.size ≤ x.adr
    simpa [pow2round] using this

/-- Each placed area's base address is the sum of the rounded sizes of the
areas placed before it (the running cursor). -/
theorem areaLoop_adr_eq (c : Nat) (rb : Option Nat) (l : List wb_area) :
    ∀ i (h : i < (areaLoop c rb l).1.length),
      ((areaLoop c rb l).1.get ⟨i, h⟩).adr =
        c + ((l.take i).map (fun a => pow2round a.size)).sum := by
  induction l generalizing c rb with
  | nil => intro i h; simp [areaLoop] at h
  | cons a rest ih =>
    intro i h
    cases i with
    | zero => simp [areaLoop]
    | succ j =>
      have h' : j < (areaLoop (c + (1 <<< bit_length (a.size - 1)))
          (if a.obj = none then some c else rb) rest).1.length := by
        simpa [areaLoop] using h
      have := ih (c + (1 <<< bit_length (a.size - 1)))
        (if a.obj = none then some c else rb) j h'
      show ((areaLoop _ _ rest).1.get ⟨j, h'⟩).adr = _
      rw [this]
      simp [pow2round, List.take_succ_cons]
      omega

/-! ## Register address assignment (`wb_block.__init__`) -/

/-- Registers carrying consecutive address ranges from a start address:
each register's `base` is the running address, which then advances by the
register's `size` (= repeat count). -/
inductive RegChain : Nat → List wb_reg → Prop
  | nil (n : Nat) : RegChain n []
  | cons {n : Nat} {r : wb_reg} {rs : List wb_reg} :
      r.base = n → RegChain (n + r.size) rs → RegChain n (r :: rs)

/-- The ordered register children of a block node, with their tags. -/
def regChildren : List BlockChild → List (String × RegDecl)
  | [] => []
  | .creg d :: rest => ("creg", d) :: regChildren rest
  | .sreg d :: rest => ("sreg", d) :: regChildren rest
  | .subblock _ :: rest => regChildren rest

/-- The ordered subblock children of a block node. -/
def subChildren : List BlockChild → List SubblkDecl
  | [] => []
  | .creg _ :: rest => subChildren rest
  | .sreg _ :: rest => subChildren rest
  | .subblock sb :: rest => sb :: subChildren rest

theorem regChain_lb {n : Nat} {rs : List wb_reg} (h : RegChain n rs) :
    ∀ r ∈ rs, n ≤ r.base := by
  induction h with
  | nil => intro r h; simp at h
  | cons hb _ ih =>
    intro x hx
    rcases List.mem_cons.mp hx with rfl | hx
    · omega
    · have := ih x hx
      omega

/-- Consecutive ranges are pairwise disjoint. -/
theorem regChain_disjoint {n : Nat} {rs : List wb_reg} (h : RegChain n rs) :
    List.Pairwise (fun x y => x.base + x.size ≤ y.base) rs := by
  induction h with
  | nil => exact List.Pairwise.nil
  | cons hb hc ih =>
    refine List.pairwise_cons.mpr ⟨?_, ih⟩
    intro x hx
    have := regChain_lb hc x hx
    omega

/-- Each register's base is the start plus the sum of the sizes of the
registers before it. -/
theorem regChain_base {n : Nat} {rs : List wb_reg} (h : RegChain n rs) :
    ∀ i (hi : i < rs.length),
      (rs.get ⟨i, hi⟩).base = n + ((rs.take i).map (fun r => r.size)).sum := by
  induction h with
  | nil => intro i hi; simp at hi
  | cons hb hc ih =>
    intro i hi
    cases i with
    | zero => simpa using hb
    | succ j =>
      have hj : j < _ := Nat.lt_of_succ_lt_succ hi
      have := ih j hj
      simp only [List.get_cons_succ, List.take_succ_cons, List.map_cons,
        List.sum_cons]
      rw [this]
      omega

theorem wb_reg_init_fields {tag : String} {el : RegDecl} {adr : Nat}
    {r : wb_reg} (h : wb_reg.init tag el adr = .ok r) :
    r.regtype = tag ∧ r.rtype = el.rtype.getD "std_logic_vector" ∧
    r.base = adr ∧ r.size = el.reps.getD 1 ∧ r.name = el.rname ∧
    r.ack = el.ack.getD 0 ∧ r.stb = el.stb.getD 0 ∧
    readFields el.rname el.fields 0 = .ok r.fields := by
  unfold wb_reg.init at h
  cases hf : readFields el.rname el.fields 0 with
  | error e => rw [hf] at h; cases h
  | ok fs =>
    rw [hf] at h
    cases h
    exact ⟨rfl, rfl, rfl, rfl, rfl, rfl, rfl, rfl⟩

/-- What `regLoop` produces: a `RegChain` from the start address, the
final free address, the subblock declarations in order, and an elementwise
match between register children and constructed registers. -/
theorem regLoop_ok {children : List BlockChild} {free : Nat}
    {rs : List wb_reg} {f : Nat} {ss : List SubblkDecl}
    (h : regLoop children free = .ok (rs, f, ss)) :
    RegChain free rs ∧
    f = free + (rs.map (fun r => r.size)).sum ∧
    ss = subChildren children ∧
    List.Forall₂ (fun (td : String × RegDecl) (r : wb_reg) =>
      r.regtype = td.1 ∧ r.name = td.2.rname ∧
      r.size = td.2.reps.getD 1) (regChildren children) rs := by
  induction children generalizing free rs f ss with
  | nil =>
    simp only [regLoop] at h
    cases h
    exact ⟨RegChain.nil _, by simp, rfl, List.Forall₂.nil⟩
  | cons c rest ih =>
    cases c with
    | creg d =>
      simp only [regLoop] at h
      cases hr : wb_reg.init "creg" d free with
      | error e => rw [hr] at h; dsimp only at h; cases h
      | ok reg =>
        rw [hr] at h
        dsimp only at h
        cases hl : regLoop rest (free + reg.size) with
        | error e => rw [hl] at h; dsimp only at h; cases h
        | ok t =>
          obtain ⟨rs', f', ss'⟩ := t
          rw [hl] at h
          dsimp only at h
          cases h
          obtain ⟨hc, hf, hs, hm⟩ := ih hl
          obtain ⟨hrt, _, hb, hsz, hnm, _⟩ := wb_reg_init_fields hr
          refine ⟨RegChain.cons hb hc, ?_, hs, ?_⟩
          · simp only [List.map_cons, List.sum_cons]
            omega
          · exact List.Forall₂.cons ⟨hrt, hnm, hsz⟩ hm
    | sreg d =>
      simp only [regLoop] at h
      cases hr : wb_reg.init "sreg" d free with
      | error e => rw [hr] at h; dsimp only at h; cases h
      | ok reg =>
        rw [hr] at h
        dsimp only at h
        cases hl : regLoop rest (free + reg.size) with
        | error e => rw [hl] at h; dsimp only at h; cases h
        | ok t =>
          obtain ⟨rs', f', ss'⟩ := t
          rw [hl] at h
          dsimp only at h
          cases h
          obtain ⟨hc, hf, hs, hm⟩ := ih hl
          obtain ⟨hrt, _, hb, hsz, hnm, _⟩ := wb_reg_init_fields hr
          refine ⟨RegChain.cons hb hc, ?_, hs, ?_⟩
          · simp only [List.map_cons, List.sum_cons]
            omega
          · exact List.Forall₂.cons ⟨hrt, hnm, hsz⟩ hm
    | subblock sb =>
      simp only [regLoop] at h
      cases hl : regLoop rest free with
      | error e => rw [hl] at h; dsimp only at h; cases h
      | ok t =>
        obtain ⟨rs', f', ss'⟩ := t
        rw [hl] at h
        dsimp only at h
        cases h
        obtain ⟨hc, hf, hs, hm⟩ := ih hl
        exact ⟨hc, hf, by simp [subChildren, hs],
          by simpa [regChildren] using hm⟩

/-- What `wb_block.init` produces. -/
theorem wb_block_init_ok {name : String} {children : List BlockChild}
    {b : wb_block} (h : wb_block.init name children = .ok b) :
    b.name = name ∧ b.templ_dict = [] ∧ b.areas = [] ∧
    b.addr_size = none ∧ b.adr_bits = none ∧ b.reg_base = none ∧
    b.subblks = subChildren children ∧
    RegChain 2 b.regs ∧
    b.free_reg_addr = 2 + (b.regs.map (fun r => r.size)).sum ∧
    List.Forall₂ (fun (td : String × RegDecl) (r : wb_reg) =>
      r.regtype = td.1 ∧ r.name = td.2.rname ∧
      r.size = td.2.reps.getD 1) (regChildren children) b.regs := by
  unfold wb_block.init at h
  cases hl : regLoop children 2 with
  | error e => rw [hl] at h; cases h
  | ok t =>
    obtain ⟨rs, f, ss⟩ := t
    rw [hl] at h
    cases h
    obtain ⟨hc, hf, hs, hm⟩ := regLoop_ok hl
    exact ⟨rfl, rfl, rfl, rfl, rfl, rfl, hs, hc, hf, hm⟩

/-! ## Field packing inside one register (`wb_reg.__init__` field loop) -/

/-- Fields packed contiguously from bit offset `off`: each field's `lsb`
is the running offset, `msb = lsb + size - 1`, and the offset advances by
the field's width. -/
inductive Contig : Nat → List wb_field → Prop
  | nil (off : Nat) : Contig off []
  | cons {off : Nat} {f : wb_field} {fs : List wb_field} :
      f.lsb = off → f.msb = (off : Int) + f.size - 1 →
      Contig (off + f.size) fs → Contig off (f :: fs)

theorem readFields_ok_contig {rn : String} {decls : List FieldDecl}
    {off : Nat} {fs : List wb_field}
    (h : readFields rn decls off = .ok fs) :
    Contig off fs ∧
    List.Forall₂ (fun (d : FieldDecl) (f : wb_field) =>
      f.size = d.width ∧ f.name = d.fname ∧
      f.ftype = d.ftype.getD "std_logic_vector") decls fs := by
  induction decls generalizing off fs with
  | nil =>
    simp only [readFields] at h
    cases h
    exact ⟨Contig.nil off, List.Forall₂.nil⟩
  | cons d rest ih =>
    rw [readFields] at h
    split at h
    · cases h
    · cases hr : readFields rn rest (off + (wb_field.init d off).size) with
      | error e => rw [hr] at h; cases h
      | ok fs' =>
        rw [hr] at h
        cases h
        obtain ⟨hc, hm⟩ := ih hr
        exact ⟨Contig.cons rfl rfl hc,
          List.Forall₂.cons ⟨rfl, rfl, rfl⟩ hm⟩

theorem readFields_isOk {rn : String} {decls : List FieldDecl} {off : Nat} :
    (∃ fs, readFields rn decls off = .ok fs) ↔
      (decls = [] ∨ off + (decls.map (fun d => d.width)).sum ≤ 32) := by
  induction decls generalizing off with
  | nil => simp [readFields]
  | cons d rest ih =>
    have hsz : (wb_field.init d off).size = d.width := rfl
    constructor
    · rintro ⟨fs, h⟩
      rw [readFields] at h
      split at h
      · cases h
      · rename_i hle
        rw [hsz] at hle
        cases hr : readFields rn rest (off + (wb_field.init d off).size) with
        | error e => rw [hr] at h; cases h
        | ok fs' =>
          have := ih.mp ⟨fs', by rw [hsz] at hr; exact hr⟩
          right
          simp only [List.map_cons, List.sum_cons]
          rcases this with rfl | hle2
          · simpa using Nat.le_of_not_lt hle
          · omega
    · intro hyp
      have htot : off + d.width + (rest.map (fun d => d.width)).sum ≤ 32 := by
        rcases hyp with h0 | hle
        · cases h0
        · simpa [Nat.add_assoc] using hle
      have hrec : ∃ fs', readFields rn rest (off + d.width) = .ok fs' := by
        apply ih.mpr
        right
        omega
      obtain ⟨fs', hfs'⟩ := hrec
      refine ⟨wb_field.init d off :: fs', ?_⟩
      rw [readFields]
      rw [if_neg (by rw [hsz]; omega)]
      rw [hsz, hfs']

/-- The sum over a prefix is at most the sum over the whole list. -/
theorem sum_take_le {l : List Nat} (i : Nat) : (l.take i).sum ≤ l.sum := by
  conv_rhs => rw [← List.take_append_drop i l]
  rw [List.sum_append]
  omega

/-! ## Invariants of the recursive analysis -/

/-- A block exactly as `wb_block.init` left it, as far as `analyze` is
concerned. -/
def FreshB (b : wb_block) : Prop :=
  b.areas = [] ∧ b.addr_size = none ∧ b.adr_bits = none ∧ b.reg_base = none

/-- A block whose `analyze` is underway: the `int_regs` area has been
appended (so `areas ≠ []`, which is the re-entry guard) but the final
attributes are not yet set. -/
def InFlight (b : wb_block) : Prop := b.areas ≠ [] ∧ b.addr_size = none

/-- The fields of a block that `analyze` never changes. -/
def CoreEq (b b' : wb_block) : Prop :=
  b'.name = b.name ∧ b'.templ_dict = b.templ_dict ∧ b'.regs = b.regs ∧
  b'.free_reg_addr = b.free_reg_addr ∧ b'.subblks = b.subblks

theorem CoreEq.refl (b : wb_block) : CoreEq b b := ⟨rfl, rfl, rfl, rfl, rfl⟩

theorem CoreEq.trans {a b c : wb_block} (h1 : CoreEq a b) (h2 : CoreEq b c) :
    CoreEq a c := by
  obtain ⟨e1, e2, e3, e4, e5⟩ := h1
  obtain ⟨f1, f2, f3, f4, f5⟩ := h2
  exact ⟨f1.trans e1, f2.trans e2, f3.trans e3, f4.trans e4, f5.trans e5⟩

/-- The area a subblock reference contributes
(`wb_area(bl.addr_size * reps, sblk.get('name'), bl, reps)`). -/
def subArea (sb : SubblkDecl) (sz : Nat) : wb_area :=
  wb_area.init (sz * sb.reps.getD 1) sb.sname (some sb.btype) (sb.reps.getD 1)

/-- The area list of a block just before sorting: the local-register area
followed by one area per subblock reference. -/
def preAreas (b : wb_block) (szs : List Nat) : List wb_area :=
  wb_area.init b.free_reg_addr (some "int_regs") none 1 ::
    List.zipWith subArea b.subblks szs

/-- A fully analyzed block, relative to registry `st`: its derived state
is what `finalizeBlock` computes from `preAreas b szs`, where each `szs`
entry is the referenced block's rounded `addr_size` as recorded in
`st`. -/
def PostA (st : Registry) (b : wb_block) : Prop :=
  ∃ szs : List Nat,
    szs.length = b.subblks.length ∧
    (∀ i (h : i < b.subblks.length),
      ∃ sub, lookupB st (b.subblks.get ⟨i, h⟩).btype = some sub ∧
        sub.areas ≠ [] ∧ sub.addr_size = some (szs.getD i 0)) ∧
    b.areas = (areaLoop 0 none (sortDesc (preAreas b szs))).1 ∧
    b.reg_base = (areaLoop 0 none (sortDesc (preAreas b szs))).2.2 ∧
    b.addr_size =
      some (pow2round (areaLoop 0 none (sortDesc (preAreas b szs))).2.1) ∧
    b.adr_bits =
      some (bit_length ((areaLoop 0 none (sortDesc (preAreas b szs))).2.1 - 1))

theorem PostA_areas_ne {st : Registry} {b : wb_block} (h : PostA st b) :
    b.areas ≠ [] := by
  obtain ⟨szs, _, _, hareas, _⟩ := h
  intro hnil
  have : (areaLoop 0 none (sortDesc (preAreas b szs))).1.length = 0 := by
    rw [← hareas, hnil]; rfl
  rw [areaLoop_length, sortDesc_length] at this
  simp [preAreas] at this

theorem PostA_addr_size {st : Registry} {b : wb_block} (h : PostA st b) :
    b.addr_size.isSome = true := by
  obtain ⟨szs, _, _, _, _, hsz, _⟩ := h
  rw [hsz]; rfl

/-- `PostA` facts survive any registry change that keeps every analyzed
block with a set `addr_size` untouched. -/
theorem PostA_mono {st st' : Registry} {b : wb_block}
    (hstab : ∀ n bb, lookupB st n = some bb → bb.areas ≠ [] →
      bb.addr_size.isSome = true → lookupB st' n = some bb)
    (h : PostA st b) : PostA st' b := by
  obtain ⟨szs, hlen, hsubs, hrest⟩ := h
  refine ⟨szs, hlen, ?_, hrest⟩
  intro i hi
  obtain ⟨sub, hlook, hne2, hsz⟩ := hsubs i hi
  exact ⟨sub, hstab _ sub hlook hne2 (by rw [hsz]; rfl), hne2, hsz⟩

/-- `preAreas` only reads fields preserved by `CoreEq`. -/
theorem preAreas_coreEq {b b' : wb_block} (h : CoreEq b b')
    (szs : List Nat) : preAreas b' szs = preAreas b szs := by
  obtain ⟨_, _, _, h4, h5⟩ := h
  simp [preAreas, h4, h5]

/-- The contract of one `analyze` call (`f` is `analyzeFuel fuel`):
starting from a registry whose blocks are each fresh, in flight, or
analyzed, and a target whose `areas` list is empty, a successful call
(1) leaves every block that already had a non-empty `areas` list
untouched (re-use of an earlier analysis), (2) preserves the registry's
domain, (3) preserves every block's analysis-independent fields, (4)
leaves every block fresh, in flight (only if it already was), or fully
analyzed, and (5) leaves the target fully analyzed. -/
def AnalyzeSpec (f : Registry → String → Option Registry) : Prop :=
  ∀ st root st',
    (∀ n b, lookupB st n = some b → FreshB b ∨ InFlight b ∨ PostA st b) →
    (∀ b, lookupB st root = some b → b.areas = []) →
    f st root = some st' →
    (∀ n b, lookupB st n = some b → b.areas ≠ [] →
      lookupB st' n = some b) ∧
    (∀ n, (lookupB st' n).isSome = (lookupB st n).isSome) ∧
    (∀ n b, lookupB st n = some b →
      ∃ b', lookupB st' n = some b' ∧ CoreEq b b') ∧
    (∀ n b', lookupB st' n = some b' →
      FreshB b' ∨ (InFlight b' ∧ lookupB st n = some b') ∨ PostA st' b') ∧
    (∃ br, lookupB st' root = some br ∧ PostA st' br)

/-- The contract of the subblock loop: it analyzes each not-yet-analyzed
referenced type, leaves already-analyzed blocks untouched, and appends to
the target's `areas` exactly one `subArea` per subblock reference, sized
by the referenced block's rounded `addr_size`. -/
theorem subblkLoop_spec {recur : Registry → String → Option Registry}
    (hrec : AnalyzeSpec recur) :
    ∀ (subs : List SubblkDecl) (bname : String) (stIn st2 : Registry)
      (bcur : wb_block),
    (∀ n b, lookupB stIn n = some b → FreshB b ∨ InFlight b ∨ PostA stIn b) →
    lookupB stIn bname = some bcur →
    bcur.addr_size = none → bcur.areas ≠ [] →
    subblkLoop recur bname subs stIn = some st2 →
    (∀ n b, lookupB stIn n = some b → b.areas ≠ [] → n ≠ bname →
      lookupB st2 n = some b) ∧
    (∀ n, (lookupB st2 n).isSome = (lookupB stIn n).isSome) ∧
    (∀ n b, lookupB stIn n = some b →
      ∃ b', lookupB st2 n = some b' ∧ CoreEq b b') ∧
    (∀ n b', lookupB st2 n = some b' → n ≠ bname →
      FreshB b' ∨ (InFlight b' ∧ lookupB stIn n = some b') ∨
        PostA st2 b') ∧
    (∃ szs : List Nat, szs.length = subs.length ∧
      (∀ i (h : i < subs.length),
        ∃ sub, lookupB st2 (subs.get ⟨i, h⟩).btype = some sub ∧
          sub.areas ≠ [] ∧ sub.addr_size = some (szs.getD i 0)) ∧
      lookupB st2 bname = some { bcur with areas := (bcur.areas ++
        List.zipWith subArea subs szs) }) := by
  intro subs
  induction subs with
  | nil =>
    intro bname stIn st2 bcur hinv hbcur hnone hne hloop
    rw [subblkLoop] at hloop
    cases hloop
    refine ⟨fun n b hb _ _ => hb, fun n => rfl,
      fun n b hb => ⟨b, hb, CoreEq.refl b⟩,
      fun n b' hb' _ => ?_, [], rfl, fun i h => absurd h (by simp), ?_⟩
    · rcases hinv n b' hb' with h | h | h
      · exact Or.inl h
      · exact Or.inr (Or.inl ⟨h, hb'⟩)
      · exact Or.inr (Or.inr h)
    · simpa using hbcur
  | cons sb rest ih =>
    intro bname stIn st2 bcur hinv hbcur hnone hne hloop
    rw [subblkLoop] at hloop
    cases hbl : lookupB stIn sb.btype with
    | none => rw [hbl] at hloop; dsimp only at hloop; cases hloop
    | some bl =>
    rw [hbl] at hloop
    dsimp only at hloop
    cases hg : (if bl.areas.isEmpty then recur stIn sb.btype
        else some stIn) with
    | none => rw [hg] at hloop; dsimp only at hloop; cases hloop
    | some stR =>
    rw [hg] at hloop
    dsimp only at hloop
    -- the registry after the optional recursive analysis
    have hfacts :
        (∀ n b, lookupB stIn n = some b → b.areas ≠ [] →
          lookupB stR n = some b) ∧
        (∀ n, (lookupB stR n).isSome = (lookupB stIn n).isSome) ∧
        (∀ n b, lookupB stIn n = some b →
          ∃ b', lookupB stR n = some b' ∧ CoreEq b b') ∧
        (∀ n b', lookupB stR n = some b' →
          FreshB b' ∨ (InFlight b' ∧ lookupB stIn n = some b') ∨
            PostA stR b') ∧
        (∃ bl2, lookupB stR sb.btype = some bl2 ∧ bl2.areas ≠ []) := by
      by_cases hguard : bl.areas.isEmpty
      · rw [if_pos hguard] at hg
        have hroot2 : ∀ b, lookupB stIn sb.btype = some b → b.areas = [] := by
          intro b hb
          have hbe : bl = b := Option.some.inj (hbl.symm.trans hb)
          subst hbe
          exact List.isEmpty_iff.mp hguard
        obtain ⟨h1, h2, h3, h4, br, hbr, hpost⟩ :=
          hrec stIn sb.btype stR hinv hroot2 hg
        exact ⟨h1, h2, h3, h4, br, hbr, PostA_areas_ne hpost⟩
      · rw [if_neg hguard] at hg
        cases hg
        refine ⟨fun n b hb _ => hb, fun n => rfl,
          fun n b hb => ⟨b, hb, CoreEq.refl b⟩, ?_,
          bl, hbl, fun hnil => hguard (by simp [hnil])⟩
        intro n b' hb'
        rcases hinv n b' hb' with h | h | h
        · exact Or.inl h
        · exact Or.inr (Or.inl ⟨h, hb'⟩)
        · exact Or.inr (Or.inr h)
    obtain ⟨hstabR, hdomR, hcoreR, hinvR, bl2, hbl2, hbl2ne⟩ := hfacts
    have hbcurR : lookupB stR bname = some bcur := hstabR bname bcur hbcur hne
    rw [hbl2] at hloop
    dsimp only at hloop
    cases hsz : bl2.addr_size with
    | none => rw [hsz] at hloop; dsimp only at hloop; cases hloop
    | some bsize =>
    rw [hsz] at hloop
    dsimp only at hloop
    rw [hbcurR] at hloop
    dsimp only at hloop
    have hsub_eq : wb_area.init (bsize * sb.reps.getD 1) sb.sname
        (some sb.btype) (sb.reps.getD 1) = subArea sb bsize := rfl
    rw [hsub_eq] at hloop
    -- facts about the updated registry st2' = setB stR bname bcur'
    have hlook' : lookupB (setB stR bname
        { bcur with areas := bcur.areas ++ [subArea sb bsize] }) bname =
        some { bcur with areas := bcur.areas ++ [subArea sb bsize] } :=
      lookupB_setB_self hbcurR
    have hne' : ({ bcur with areas := bcur.areas ++ [subArea sb bsize] }
        : wb_block).areas ≠ [] := by
      simp
    have hinv' : ∀ n b, lookupB (setB stR bname
        { bcur with areas := bcur.areas ++ [subArea sb bsize] }) n =
          some b → FreshB b ∨ InFlight b ∨ PostA (setB stR bname
            { bcur with areas := bcur.areas ++ [subArea sb bsize] }) b := by
      intro n b hb
      by_cases hn : n = bname
      · subst hn
        have hbe : ({ bcur with areas := bcur.areas ++ [subArea sb bsize] }
            : wb_block) = b := Option.some.inj (hlook'.symm.trans hb)
        subst hbe
        exact Or.inr (Or.inl ⟨by simp, hnone⟩)
      · rw [lookupB_setB_ne hn] at hb
        rcases hinvR n b hb with h | h | h
        · exact Or.inl h
        · exact Or.inr (Or.inl h.1)
        · refine Or.inr (Or.inr (PostA_mono ?_ h))
          intro m bb hm hmne hmsome
          by_cases hmb : m = bname
          · subst hmb
            have : bcur = bb := Option.some.inj (hbcurR.symm.trans hm)
            subst this
            rw [hnone] at hmsome
            cases hmsome
          · rw [lookupB_setB_ne hmb]
            exact hm
    obtain ⟨h1', h2', h3', h4', szs', hlen', hsubs', hfin'⟩ :=
      ih bname _ st2 _ hinv' hlook' hnone hne' hloop
    -- the referenced type is not the target (its addr_size is set)
    have hbt : sb.btype ≠ bname := by
      intro he
      rw [he] at hbl2
      have : bcur = bl2 := Option.some.inj (hbcurR.symm.trans hbl2)
      rw [← this, hnone] at hsz
      cases hsz
    refine ⟨?_, ?_, ?_, ?_, bsize :: szs', by simp [hlen'], ?_, ?_⟩
    · -- (1) stability
      intro n b hb hbne hnb
      have hR : lookupB stR n = some b := hstabR n b hb hbne
      have h2 : lookupB (setB stR bname
          { bcur with areas := bcur.areas ++ [subArea sb bsize] }) n =
          some b := by rw [lookupB_setB_ne hnb]; exact hR
      exact h1' n b h2 hbne hnb
    · -- (2) domain
      intro n
      rw [h2' n, lookupB_setB_isSome, hdomR n]
    · -- (3) core preservation
      intro n b hb
      obtain ⟨b1, hb1, hc1⟩ := hcoreR n b hb
      by_cases hn : n = bname
      · subst hn
        have hbe : b1 = bcur := Option.some.inj (hb1.symm.trans hbcurR)
        subst hbe
        obtain ⟨b3, hb3, hc3⟩ := h3' _ _ hlook'
        exact ⟨b3, hb3, (hc1.trans ⟨rfl, rfl, rfl, rfl, rfl⟩).trans hc3⟩
      · have hb2 : lookupB (setB stR bname
            { bcur with areas := bcur.areas ++ [subArea sb bsize] }) n =
            some b1 := by rw [lookupB_setB_ne hn]; exact hb1
        obtain ⟨b3, hb3, hc3⟩ := h3' n b1 hb2
        exact ⟨b3, hb3, hc1.trans hc3⟩
    · -- (4) invariant at the end
      intro n b' hb' hnb
      rcases h4' n b' hb' hnb with h | ⟨hifl, hb2⟩ | h
      · exact Or.inl h
      · rw [lookupB_setB_ne hnb] at hb2
        rcases hinvR n b' hb2 with h | ⟨_, hin⟩ | h
        · exact Or.inl h
        · exact Or.inr (Or.inl ⟨hifl, hin⟩)
        · have hsome := PostA_addr_size h
          rw [hifl.2] at hsome
          cases hsome
      · exact Or.inr (Or.inr h)
    · -- (5a) per-subblock facts
      intro i h
      cases i with
      | zero =>
        have hA : lookupB (setB stR bname
            { bcur with areas := bcur.areas ++ [subArea sb bsize] })
            sb.btype = some bl2 := by
          rw [lookupB_setB_ne hbt]; exact hbl2
        have hB : lookupB st2 sb.btype = some bl2 :=
          h1' sb.btype bl2 hA hbl2ne hbt
        exact ⟨bl2, hB, hbl2ne, hsz⟩
      | succ j =>
        have hj : j < rest.length := by simpa using h
        obtain ⟨sub, ha, hb, hc⟩ := hsubs' j hj
        exact ⟨sub, ha, hb, hc⟩
    · -- (5b) the target's accumulated areas
      rw [hfin']
      congr 2
      simp [List.append_assoc]

/-- `analyzeFuel` satisfies the analysis contract for every fuel. -/
theorem analyzeFuel_spec : ∀ fuel, AnalyzeSpec (analyzeFuel fuel) := by
  intro fuel
  induction fuel with
  | zero =>
    intro st root st' _ _ h
    simp [analyzeFuel] at h
  | succ fuel ih =>
    intro st root st' hinv hroot hrun
    rw [analyzeFuel] at hrun
    cases hself : lookupB st root with
    | none => rw [hself] at hrun; dsimp only at hrun; cases hrun
    | some self =>
    rw [hself] at hrun
    dsimp only at hrun
    have hsa : self.areas = [] := hroot self hself
    have hfresh : FreshB self := by
      rcases hinv root self hself with h | h | h
      · exact h
      · exact absurd hsa h.1
      · exact absurd hsa (PostA_areas_ne h)
    rw [hsa] at hrun
    -- st1 = setB st root self1, self1 carrying only the int_regs area
    have hlook1 : lookupB (setB st root { self with areas := [] ++
        [wb_area.init self.free_reg_addr (some "int_regs") none 1] })
        root = some { self with areas := [] ++
        [wb_area.init self.free_reg_addr (some "int_regs") none 1] } :=
      lookupB_setB_self hself
    have hinv1 : ∀ n b, lookupB (setB st root { self with areas := [] ++
        [wb_area.init self.free_reg_addr (some "int_regs") none 1] }) n =
          some b → FreshB b ∨ InFlight b ∨
            PostA (setB st root { self with areas := [] ++
              [wb_area.init self.free_reg_addr (some "int_regs") none 1] })
              b := by
      intro n b hb
      by_cases hn : n = root
      · subst hn
        have hbe : ({ self with areas := [] ++
            [wb_area.init self.free_reg_addr (some "int_regs") none 1] }
            : wb_block) = b := Option.some.inj (hlook1.symm.trans hb)
        subst hbe
        exact Or.inr (Or.inl ⟨by simp, hfresh.2.1⟩)
      · rw [lookupB_setB_ne hn] at hb
        rcases hinv n b hb with h | h | h
        · exact Or.inl h
        · exact Or.inr (Or.inl h)
        · refine Or.inr (Or.inr (PostA_mono ?_ h))
          intro m bb hm hmne _
          by_cases hmb : m = root
          · subst hmb
            have : self = bb := Option.some.inj (hself.symm.trans hm)
            subst this
            exact absurd hsa hmne
          · rw [lookupB_setB_ne hmb]
            exact hm
    cases hloop : subblkLoop (analyzeFuel fuel) root self.subblks
        (setB st root { self with areas := [] ++
          [wb_area.init self.free_reg_addr (some "int_regs") none 1] }) with
    | none => rw [hloop] at hrun; dsimp only at hrun; cases hrun
    | some st2 =>
    rw [hloop] at hrun
    dsimp only at hrun
    obtain ⟨h1, h2, h3, h4, szs, hlen, hsubs, hfin⟩ :=
      subblkLoop_spec ih self.subblks root _ st2 _ hinv1 hlook1
        hfresh.2.1 (by simp) hloop
    rw [hfin] at hrun
    dsimp only at hrun
    cases hrun
    -- name the finalized root block
    have hfinal : lookupB (setB st2 root (finalizeBlock
        { self with areas := (([] ++
          [wb_area.init self.free_reg_addr (some "int_regs") none 1]) ++
          List.zipWith subArea self.subblks szs) })) root =
        some (finalizeBlock { self with areas := (([] ++
          [wb_area.init self.free_reg_addr (some "int_regs") none 1]) ++
          List.zipWith subArea self.subblks szs) }) :=
      lookupB_setB_self hfin
    -- st2 → st' stability for analyzed blocks
    have hstab2 : ∀ m bb, lookupB st2 m = some bb → bb.areas ≠ [] →
        bb.addr_size.isSome = true →
        lookupB (setB st2 root (finalizeBlock { self with areas := (([] ++
          [wb_area.init self.free_reg_addr (some "int_regs") none 1]) ++
          List.zipWith subArea self.subblks szs) })) m = some bb := by
      intro m bb hm hmne hmsome
      by_cases hmb : m = root
      · subst hmb
        have : ({ self with areas := (([] ++
            [wb_area.init self.free_reg_addr (some "int_regs") none 1]) ++
            List.zipWith subArea self.subblks szs) } : wb_block) = bb :=
          Option.some.inj (hfin.symm.trans hm)
        rw [← this] at hmsome
        rw [show ({ self with areas := (([] ++
            [wb_area.init self.free_reg_addr (some "int_regs") none 1]) ++
            List.zipWith subArea self.subblks szs) } : wb_block).addr_size =
            self.addr_size from rfl, hfresh.2.1] at hmsome
        cases hmsome
      · rw [lookupB_setB_ne hmb]
        exact hm
    -- the root block is fully analyzed in the final registry
    have hpostRoot : PostA (setB st2 root (finalizeBlock
        { self with areas := (([] ++
          [wb_area.init self.free_reg_addr (some "int_regs") none 1]) ++
          List.zipWith subArea self.subblks szs) }))
        (finalizeBlock { self with areas := (([] ++
          [wb_area.init self.free_reg_addr (some "int_regs") none 1]) ++
          List.zipWith subArea self.subblks szs) }) := by
      refine ⟨szs, hlen, ?_, rfl, rfl, rfl, rfl⟩
      intro i hi
      obtain ⟨sub, hs1, hs2, hs3⟩ := hsubs i hi
      have hbt : (self.subblks.get ⟨i, hi⟩).btype ≠ root := by
        intro he
        rw [he] at hs1
        have : ({ self with areas := (([] ++
            [wb_area.init self.free_reg_addr (some "int_regs") none 1]) ++
            List.zipWith subArea self.subblks szs) } : wb_block) = sub :=
          Option.some.inj (hfin.symm.trans hs1)
        rw [← this] at hs3
        rw [show ({ self with areas := (([] ++
            [wb_area.init self.free_reg_addr (some "int_regs") none 1]) ++
            List.zipWith subArea self.subblks szs) } : wb_block).addr_size =
            self.addr_size from rfl, hfresh.2.1] at hs3
        cases hs3
      exact ⟨sub, (lookupB_setB_ne hbt).trans hs1, hs2, hs3⟩
    refine ⟨?_, ?_, ?_, ?_, _, hfinal, hpostRoot⟩
    · -- (1) stability from st
      intro n b hb hbne
      have hnr : n ≠ root := by
        intro he
        subst he
        have : self = b := Option.some.inj (hself.symm.trans hb)
        subst this
        exact hbne hsa
      have hA : lookupB (setB st root { self with areas := [] ++
          [wb_area.init self.free_reg_addr (some "int_regs") none 1] }) n =
          some b := by rw [lookupB_setB_ne hnr]; exact hb
      have hB : lookupB st2 n = some b := h1 n b hA hbne hnr
      rw [lookupB_setB_ne hnr]
      exact hB
    · -- (2) domain
      intro n
      rw [lookupB_setB_isSome, h2 n, lookupB_setB_isSome]
    · -- (3) core preservation
      intro n b hb
      by_cases hn : n = root
      · subst hn
        have hbe : self = b := Option.some.inj (hself.symm.trans hb)
        subst hbe
        obtain ⟨b3, hb3, hc3⟩ := h3 _ _ hlook1
        have hb3r : b3 = ({ self with areas := (([] ++
            [wb_area.init self.free_reg_addr (some "int_regs") none 1]) ++
            List.zipWith subArea self.subblks szs) } : wb_block) :=
          Option.some.inj (hb3.symm.trans hfin)
        refine ⟨finalizeBlock ({ self with areas := (([] ++
            [wb_area.init self.free_reg_addr (some "int_regs") none 1]) ++
            List.zipWith subArea self.subblks szs) }), hfinal, ?_⟩
        exact ⟨rfl, rfl, rfl, rfl, rfl⟩
      · have hA : lookupB (setB st root { self with areas := [] ++
            [wb_area.init self.free_reg_addr (some "int_regs") none 1] })
            n = some b := by rw [lookupB_setB_ne hn]; exact hb
        obtain ⟨b3, hb3, hc3⟩ := h3 n b hA
        refine ⟨b3, ?_, hc3⟩
        rw [lookupB_setB_ne hn]
        exact hb3
    · -- (4) final invariant
      intro n b' hb'
      by_cases hn : n = root
      · subst hn
        have : finalizeBlock ({ self with areas := (([] ++
            [wb_area.init self.free_reg_addr (some "int_regs") none 1]) ++
            List.zipWith subArea self.subblks szs) } : wb_block) = b' :=
          Option.some.inj (hfinal.symm.trans hb')
        subst this
        exact Or.inr (Or.inr hpostRoot)
      · rw [lookupB_setB_ne hn] at hb'
        rcases h4 n b' hb' hn with h | ⟨hifl, hb2⟩ | h
        · exact Or.inl h
        · rw [lookupB_setB_ne hn] at hb2
          exact Or.inr (Or.inl ⟨hifl, hb2⟩)
        · exact Or.inr (Or.inr (PostA_mono hstab2 h))


/-! ## Assorted helpers for the claim theorems -/

instance (b : wb_block) : Decidable (FreshB b) := by
  unfold FreshB; infer_instance

/-- Decidable mirror of `RegChain`. -/
def regChainB : Nat → List wb_reg → Bool
  | _, [] => true
  | n, r :: rs => decide (r.base = n) && regChainB (n + r.size) rs

theorem regChainB_iff {n : Nat} {rs : List wb_reg} :
    regChainB n rs = true ↔ RegChain n rs := by
  induction rs generalizing n with
  | nil => simp [regChainB]; exact RegChain.nil n
  | cons r rest ih =>
    simp only [regChainB, Bool.and_eq_true, decide_eq_true_eq]
    constructor
    · rintro ⟨h1, h2⟩
      exact RegChain.cons h1 (ih.mp h2)
    · rintro (_ | ⟨h1, h2⟩)
      exact ⟨by assumption, ih.mpr (by assumption)⟩

instance (n : Nat) (rs : List wb_reg) : Decidable (RegChain n rs) :=
  decidable_of_iff _ regChainB_iff

theorem lookupB_mem {st : Registry} {n : String} {b : wb_block}
    (h : lookupB st n = some b) : (n, b) ∈ st := by
  induction st with
  | nil => simp [lookupB, List.lookup] at h
  | cons p rest ih =>
    obtain ⟨k, v⟩ := p
    by_cases hk : n = k
    · subst hk
      have he : (n == n) = true := by simp
      simp only [lookupB, List.lookup, he] at h
      cases h
      exact List.mem_cons_self _ _
    · have hne : (n == k) = false := by simp [BEq.beq]; exact hk
      simp only [lookupB, List.lookup, hne] at h
      exact List.mem_cons_of_mem _ (ih h)

theorem forall2_mem_right {α β : Type} {R : α → β → Prop} {l : List α}
    {l' : List β} (h : List.Forall₂ R l l') :
    ∀ b ∈ l', ∃ a ∈ l, R a b := by
  induction h with
  | nil => intro b hb; simp at hb
  | cons hr _ ih =>
    intro b hb
    rcases List.mem_cons.mp hb with rfl | hb
    · exact ⟨_, List.mem_cons_self _ _, hr⟩
    · obtain ⟨a, ha, hab⟩ := ih b hb
      exact ⟨a, List.mem_cons_of_mem _ ha, hab⟩

theorem forall2_get {α β : Type} {R : α → β → Prop} {l : List α}
    {l' : List β} (h : List.Forall₂ R l l') :
    ∀ i (h1 : i < l.length) (h2 : i < l'.length),
      R (l.get ⟨i, h1⟩) (l'.get ⟨i, h2⟩) := by
  induction h with
  | nil => intro i h1; simp at h1
  | cons hr hrest ih =>
    intro i h1 h2
    cases i with
    | zero => exact hr
    | succ j =>
      exact ih j (Nat.lt_of_succ_lt_succ h1) (Nat.lt_of_succ_lt_succ h2)

theorem bit_length_pow2_sub_one (k : Nat) : bit_length (2 ^ k - 1) = k := by
  have h1 : bit_length (2 ^ k - 1) ≤ k :=
    bit_length_le.mpr (by have := Nat.two_pow_pos k; omega)
  cases k with
  | zero => simpa using h1
  | succ j =>
    have h2 : ¬ bit_length (2 ^ (j + 1) - 1) ≤ j := by
      rw [bit_length_le]
      have h3 : (2:Nat) ^ j < 2 ^ (j + 1) := by
        have := Nat.two_pow_pos j
        rw [Nat.pow_succ]
        omega
      have := Nat.two_pow_pos j
      omega
    omega

/-- Base addresses along the final area list are the prefix sums of the
`total_size` values. -/
theorem areaLoop_adr_prefix (c : Nat) (rb : Option Nat) (l : List wb_area) :
    ∀ i (h : i < (areaLoop c rb l).1.length),
      ((areaLoop c rb l).1.get ⟨i, h⟩).adr =
        c + (((areaLoop c rb l).1.take i).map
          (fun a => a.total_size)).sum := by
  induction l generalizing c rb with
  | nil => intro i h; simp [areaLoop] at h
  | cons a rest ih =>
    intro i h
    cases i with
    | zero => simp [areaLoop]
    | succ j =>
      have h' : j < (areaLoop (c + (1 <<< bit_length (a.size - 1)))
          (if a.obj = none then some c else rb) rest).1.length := by
        simpa [areaLoop] using h
      have := ih (c + (1 <<< bit_length (a.size - 1)))
        (if a.obj = none then some c else rb) j h'
      show ((areaLoop _ _ rest).1.get ⟨j, h'⟩).adr = _
      rw [this]
      simp [areaLoop, List.take_succ_cons]
      omega

/-- The analysis-stable projection of an area (every field the placement
loop does not overwrite). -/
def areaCore (a : wb_area) : Option String × Nat × Option String × Nat :=
  (a.name, a.size, a.obj, a.reps)

theorem filter_map_areaCore {l out : List wb_area}
    (h : List.Forall₂ (fun a0 a =>
      a.name = a0.name ∧ a.size = a0.size ∧ a.obj = a0.obj ∧
      a.mask = a0.mask ∧ a.reps = a0.reps ∧
      a.adr_bits = some (bit_length (a0.size - 1)) ∧
      a.total_size = pow2round a0.size ∧
      a.first_port = a0.first_port ∧ a.last_port = a0.last_port) l out)
    (k : Nat) :
    (out.filter (fun a => a.size = k)).map areaCore =
      (l.filter (fun a => a.size = k)).map areaCore := by
  induction h with
  | nil => rfl
  | cons hr hrest ih =>
    rename_i a0 a l0 out0
    obtain ⟨e1, e2, e3, _, e5, _⟩ := hr
    simp only [List.filter_cons]
    by_cases hk : a0.size = k
    · rw [if_pos (by simp [e2, hk]), if_pos (by simp [hk])]
      simp only [List.map_cons, ih]
      congr 1
      simp [areaCore, e1, e2, e3, e5]
    · rw [if_neg (by simp [e2, hk]), if_neg (by simp [hk])]
      exact ih

theorem zipWith_subArea_obj {subs : List SubblkDecl} {szs : List Nat} :
    ∀ a ∈ List.zipWith subArea subs szs, a.obj.isSome = true := by
  induction subs generalizing szs with
  | nil => intro a ha; simp at ha
  | cons sb rest ih =>
    intro a ha
    cases szs with
    | nil => simp at ha
    | cons sz szs' =>
      rcases List.mem_cons.mp ha with rfl | ha
      · rfl
      · exact ih a ha

/-! ## Concrete example hierarchies (used by the witnesses)

`exStA` is exactly concrete scenario B of the specification: a top block
with local-register raw size 8 (6 one-slot registers after the two
reserved words) and two `reps = 1` subblock references whose rounded
sizes are 16 and 4.  `exStB` adds a `reps = 3` reference. -/

def emptyBlk : wb_block :=
  { name := "", templ_dict := [], areas := [], regs := [],
    free_reg_addr := 0, subblks := [], addr_size := none, adr_bits := none,
    reg_base := none }

def mkRegChildren (n : Nat) : List BlockChild :=
  (List.range n).map fun i => .creg
    { rname := "r" ++ toString i, rtype := none, reps := none,
      ack := none, stb := none, fields := [] }

def exX : wb_block := ((wb_block.init "x" (mkRegChildren 9)).toOption).getD
  emptyBlk

def exY : wb_block := ((wb_block.init "y" (mkRegChildren 1)).toOption).getD
  emptyBlk

def exChT : List BlockChild := mkRegChildren 6 ++
  [.subblock { btype := "x", sname := some "sx", reps := none },
   .subblock { btype := "y", sname := some "sy", reps := none }]

def exTdecl : wb_block := ((wb_block.init "t" exChT).toOption).getD emptyBlk

def exStA : Registry := [("t", exTdecl), ("x", exX), ("y", exY)]

def exStARes : Registry := (analyzeFuel 5 exStA "t").getD []

def exTA : wb_block := (lookupB exStARes "t").getD emptyBlk

def exChU : List BlockChild := mkRegChildren 2 ++
  [.subblock { btype := "x", sname := some "sx", reps := none },
   .subblock { btype := "y", sname := some "sy", reps := some 3 }]

def exUdecl : wb_block := ((wb_block.init "u" exChU).toOption).getD emptyBlk

def exStB : Registry := [("u", exUdecl), ("x", exX), ("y", exY)]

def exStBRes : Registry := (analyzeFuel 5 exStB "u").getD []

def exTB : wb_block := (lookupB exStBRes "u").getD emptyBlk

/-! ## Claim C1 -/

/-- C1: after `analyze` completes (from freshly constructed blocks), every
area of every block in the registry has `total_size = pow2round size`
(i.e. `1 << ceil(log2(raw_size))`) and a base address that is a multiple
of it; this holds with no explicit alignment step because areas are
sorted by raw size descending and the cursor advances by power-of-two
rounded sizes. -/
theorem C1_alignment (fuel : Nat) (st st' : Registry) (root : String)
    (hfresh : ∀ p ∈ st, FreshB p.2)
    (hrun : analyzeFuel fuel st root = some st') :
    ∀ n b, lookupB st' n = some b → ∀ a ∈ b.areas,
      a.total_size = pow2round a.size ∧ a.adr % a.total_size = 0 := by
  have hinv : ∀ n b, lookupB st n = some b →
      FreshB b ∨ InFlight b ∨ PostA st b :=
    fun n b hb => Or.inl (hfresh (n, b) (lookupB_mem hb))
  have hroot : ∀ b, lookupB st root = some b → b.areas = [] :=
    fun b hb => (hfresh (root, b) (lookupB_mem hb)).1
  obtain ⟨h1, h2, h3, h4, _⟩ :=
    analyzeFuel_spec fuel st root st' hinv hroot hrun
  intro n b hb a ha
  rcases h4 n b hb with hF | ⟨hI, hb0⟩ | hP
  · rw [hF.1] at ha
    cases ha
  · exact absurd (hfresh (n, b) (lookupB_mem hb0)).1 hI.1
  · obtain ⟨szs, hlen, hsubs, hareas, _⟩ := hP
    rw [hareas] at ha
    constructor
    · obtain ⟨a0, ha0, hrel⟩ := forall2_mem_right
        (areaLoop_forall2 0 none (sortDesc (preAreas b szs))) a ha
      obtain ⟨_, e2, _, _, _, _, e7, _⟩ := hrel
      rw [e7, e2]
    · exact areaLoop_aligned 0 none _ (sortDesc_sorted _)
        (fun x _ => Nat.dvd_zero _) a ha

def exC1Area : wb_area := exTA.areas.getD 1 (wb_area.init 0 none none 0)

theorem C1_alignment_witness :
    exC1Area.total_size = pow2round exC1Area.size ∧
      exC1Area.adr % exC1Area.total_size = 0 :=
  C1_alignment 5 exStA exStARes "t" (by decide) rfl "t" exTA rfl
    exC1Area (by decide)

/-! ## Unconditional preservation of constructor-assigned fields -/

/-- `f` preserves every block's `CoreEq` fields (name, template
dictionary, registers, `free_reg_addr`, subblocks). -/
def CorePres (f : Registry → String → Option Registry) : Prop :=
  ∀ st root st', f st root = some st' →
    ∀ n b, lookupB st n = some b →
      ∃ b', lookupB st' n = some b' ∧ CoreEq b b'

theorem subblkLoop_core {recur : Registry → String → Option Registry}
    (hrec : CorePres recur) :
    ∀ (subs : List SubblkDecl) (bname : String) (stIn st2 : Registry),
      subblkLoop recur bname subs stIn = some st2 →
      ∀ n b, lookupB stIn n = some b →
        ∃ b', lookupB st2 n = some b' ∧ CoreEq b b' := by
  intro subs
  induction subs with
  | nil =>
    intro bname stIn st2 h n b hb
    rw [subblkLoop] at h
    cases h
    exact ⟨b, hb, CoreEq.refl b⟩
  | cons sb rest ih =>
    intro bname stIn st2 h n b hb
    rw [subblkLoop] at h
    cases hbl : lookupB stIn sb.btype with
    | none => rw [hbl] at h; dsimp only at h; cases h
    | some bl =>
    rw [hbl] at h
    dsimp only at h
    cases hg : (if bl.areas.isEmpty then recur stIn sb.btype
        else some stIn) with
    | none => rw [hg] at h; dsimp only at h; cases h
    | some stR =>
    rw [hg] at h
    dsimp only at h
    have hR : ∀ n b, lookupB stIn n = some b →
        ∃ b', lookupB stR n = some b' ∧ CoreEq b b' := by
      by_cases hguard : bl.areas.isEmpty
      · rw [if_pos hguard] at hg
        exact hrec stIn sb.btype stR hg
      · rw [if_neg hguard] at hg
        cases hg
        exact fun n b hb => ⟨b, hb, CoreEq.refl b⟩
    cases hbl2 : lookupB stR sb.btype with
    | none => rw [hbl2] at h; dsimp only at h; cases h
    | some bl2 =>
    rw [hbl2] at h
    dsimp only at h
    cases hsz : bl2.addr_size with
    | none => rw [hsz] at h; dsimp only at h; cases h
    | some bsize =>
    rw [hsz] at h
    dsimp only at h
    cases hself : lookupB stR bname with
    | none => rw [hself] at h; dsimp only at h; cases h
    | some self =>
    rw [hself] at h
    dsimp only at h
    obtain ⟨b1, hb1, hc1⟩ := hR n b hb
    have hstep : ∃ b2, lookupB (setB stR bname { self with
        areas := (self.areas ++ [wb_area.init (bsize * sb.reps.getD 1)
          sb.sname (some sb.btype) (sb.reps.getD 1)]) }) n = some b2 ∧
        CoreEq b1 b2 := by
      by_cases hn : n = bname
      · subst hn
        have hbe : b1 = self := Option.some.inj (hb1.symm.trans hself)
        subst hbe
        exact ⟨_, lookupB_setB_self hself, ⟨rfl, rfl, rfl, rfl, rfl⟩⟩
      · exact ⟨b1, by rw [lookupB_setB_ne hn]; exact hb1, CoreEq.refl b1⟩
    obtain ⟨b2, hb2, hc2⟩ := hstep
    obtain ⟨b3, hb3, hc3⟩ := ih bname _ st2 h n b2 hb2
    exact ⟨b3, hb3, (hc1.trans hc2).trans hc3⟩

/-- `analyze` never changes a block's name, template dictionary,
registers, `free_reg_addr` or subblock list (in particular register
addresses never change after construction). -/
theorem analyzeFuel_core : ∀ fuel, CorePres (analyzeFuel fuel) := by
  intro fuel
  induction fuel with
  | zero =>
    intro st root st' h
    simp [analyzeFuel] at h
  | succ fuel ih =>
    intro st root st' h n b hb
    rw [analyzeFuel] at h
    cases hself : lookupB st root with
    | none => rw [hself] at h; dsimp only at h; cases h
    | some self =>
    rw [hself] at h
    dsimp only at h
    cases hloop : subblkLoop (analyzeFuel fuel) root self.subblks
        (setB st root { self with areas := (self.areas ++
          [wb_area.init self.free_reg_addr (some "int_regs") none 1]) })
        with
    | none => rw [hloop] at h; dsimp only at h; cases h
    | some st2 =>
    rw [hloop] at h
    dsimp only at h
    cases hfin : lookupB st2 root with
    | none => rw [hfin] at h; dsimp only at h; cases h
    | some self2 =>
    rw [hfin] at h
    dsimp only at h
    cases h
    have hstep1 : ∃ b1, lookupB (setB st root { self with
        areas := (self.areas ++ [wb_area.init self.free_reg_addr
          (some "int_regs") none 1]) }) n = some b1 ∧ CoreEq b b1 := by
      by_cases hn : n = root
      · subst hn
        have hbe : b = self := Option.some.inj (hb.symm.trans hself)
        subst hbe
        exact ⟨_, lookupB_setB_self hself, ⟨rfl, rfl, rfl, rfl, rfl⟩⟩
      · exact ⟨b, by rw [lookupB_setB_ne hn]; exact hb, CoreEq.refl b⟩
    obtain ⟨b1, hb1, hc1⟩ := hstep1
    obtain ⟨b2, hb2, hc2⟩ := subblkLoop_core ih self.subblks root _ st2
      hloop n b1 hb1
    by_cases hn : n = root
    · subst hn
      have hbe : b2 = self2 := Option.some.inj (hb2.symm.trans hfin)
      subst hbe
      refine ⟨finalizeBlock b2, lookupB_setB_self hfin, ?_⟩
      exact (hc1.trans hc2).trans ⟨rfl, rfl, rfl, rfl, rfl⟩
    · exact ⟨b2, by rw [lookupB_setB_ne hn]; exact hb2, hc1.trans hc2⟩

/-! ## Claim C2 -/

/-- C2: in every analyzed block the address ranges
`[adr, adr + total_size)` of distinct areas are pairwise separated, and
the address ranges `[base, base + size)` of distinct registers are
pairwise separated (hence disjoint). -/
theorem C2_no_overlap (fuel : Nat) (st st' : Registry) (root : String)
    (hfresh : ∀ p ∈ st, FreshB p.2)
    (hregs : ∀ p ∈ st, RegChain 2 p.2.regs)
    (hrun : analyzeFuel fuel st root = some st') :
    ∀ n b, lookupB st' n = some b →
      List.Pairwise (fun x y : wb_area =>
        x.adr + x.total_size ≤ y.adr ∨ y.adr + y.total_size ≤ x.adr)
        b.areas ∧
      List.Pairwise (fun x y : wb_reg =>
        x.base + x.size ≤ y.base ∨ y.base + y.size ≤ x.base) b.regs := by
  have hinv : ∀ n b, lookupB st n = some b →
      FreshB b ∨ InFlight b ∨ PostA st b :=
    fun n b hb => Or.inl (hfresh (n, b) (lookupB_mem hb))
  have hroot : ∀ b, lookupB st root = some b → b.areas = [] :=
    fun b hb => (hfresh (root, b) (lookupB_mem hb)).1
  obtain ⟨h1, h2, h3, h4, _⟩ :=
    analyzeFuel_spec fuel st root st' hinv hroot hrun
  intro n b hb
  constructor
  · rcases h4 n b hb with hF | ⟨hI, hb0⟩ | hP
    · rw [hF.1]
      exact List.Pairwise.nil
    · exact absurd (hfresh (n, b) (lookupB_mem hb0)).1 hI.1
    · obtain ⟨szs, _, _, hareas, _⟩ := hP
      rw [hareas]
      exact (areaLoop_disjoint 0 none _).imp (fun hxy => Or.inl hxy)
  · have hs : (lookupB st n).isSome = true := by
      rw [← h2 n, hb]; rfl
    obtain ⟨b0, hb0⟩ := Option.isSome_iff_exists.mp hs
    obtain ⟨b', hb', hc⟩ := analyzeFuel_core fuel st root st' hrun n b0 hb0
    have hbe : b' = b := Option.some.inj (hb'.symm.trans hb)
    subst hbe
    rw [hc.2.2.1]
    exact (regChain_disjoint (hregs (n, b0) (lookupB_mem hb0))).imp
      (fun hxy => Or.inl hxy)

theorem C2_no_overlap_witness :
    List.Pairwise (fun x y : wb_area =>
      x.adr + x.total_size ≤ y.adr ∨ y.adr + y.total_size ≤ x.adr)
      exTA.areas ∧
    List.Pairwise (fun x y : wb_reg =>
      x.base + x.size ≤ y.base ∨ y.base + y.size ≤ x.base) exTA.regs :=
  C2_no_overlap 5 exStA exStARes "t" (by decide) (by decide) rfl "t" exTA
    rfl

/-! ## What the emitter leaves unchanged -/

theorem add_templ_regs (b : wb_block) (k v : String) (i : Nat) :
    (b.add_templ k v i).regs = b.regs := rfl

theorem add_templ_areas (b : wb_block) (k v : String) (i : Nat) :
    (b.add_templ k v i).areas = b.areas := rfl

theorem foldl_blk_pres {α β : Type} (P : wb_block → β)
    (f : wb_block → α → wb_block) (l : List α)
    (hf : ∀ p a, P (f p a) = P p) :
    ∀ p, P (l.foldl f p) = P p := by
  induction l with
  | nil => intro p; rfl
  | cons a rest ih => intro p; rw [List.foldl_cons, ih, hf]

theorem wb_reg_gen_vhdl_regs (r : wb_reg) (p : wb_block) :
    (wb_reg.gen_vhdl r p).regs = p.regs := by
  show ((List.range r.size).foldl
    (fun p i => p.add_templ "register_access" (r.accessArm i) 10)
    (((p.add_templ "p_package" r.pkgDecl 0).add_templ "p_package_body"
      r.pkgBody 0).add_templ "signal_ports" r.portDecl 4)).regs = p.regs
  rw [foldl_blk_pres (fun q => q.regs)
    (fun p i => p.add_templ "register_access" (r.accessArm i) 10)
    (List.range r.size) (fun p i => rfl)]
  simp only [add_templ_regs]

theorem wb_reg_gen_vhdl_areas (r : wb_reg) (p : wb_block) :
    (wb_reg.gen_vhdl r p).areas = p.areas := by
  show ((List.range r.size).foldl
    (fun p i => p.add_templ "register_access" (r.accessArm i) 10)
    (((p.add_templ "p_package" r.pkgDecl 0).add_templ "p_package_body"
      r.pkgBody 0).add_templ "signal_ports" r.portDecl 4)).areas = p.areas
  rw [foldl_blk_pres (fun q => q.areas)
    (fun p i => p.add_templ "register_access" (r.accessArm i) 10)
    (List.range r.size) (fun p i => rfl)]
  simp only [add_templ_areas]

theorem genStage1_regs (b : wb_block) : (genStage1 b).regs = b.regs := by
  unfold genStage1
  rw [foldl_blk_pres (fun q => q.regs)
    (fun p r => wb_reg.gen_vhdl r p) _
    (fun p r => wb_reg_gen_vhdl_regs r p)]
  simp only [add_templ_regs]

theorem genStage1_areas (b : wb_block) : (genStage1 b).areas = b.areas := by
  unfold genStage1
  rw [foldl_blk_pres (fun q => q.areas)
    (fun p r => wb_reg.gen_vhdl r p) _
    (fun p r => wb_reg_gen_vhdl_areas r p)]
  simp only [add_templ_areas]

theorem foldl_quad_blk_pres {α : Type} (P : wb_block → List wb_reg)
    (f : wb_block × List (Nat × Nat) × Nat × Nat → α →
      wb_block × List (Nat × Nat) × Nat × Nat) (l : List α)
    (hf : ∀ acc a, P (f acc a).1 = P acc.1) :
    ∀ acc, P ((l.foldl f acc).1) = P acc.1 := by
  induction l with
  | nil => intro acc; rfl
  | cons a rest ih => intro acc; rw [List.foldl_cons, ih, hf]

theorem genArea_blk_regs {st : Registry} {s s' : GenAreaState}
    {ar : wb_area} (h : genArea st s ar = some s') :
    s'.blk.regs = s.blk.regs := by
  unfold genArea at h
  split at h
  · cases hob : ar.adr_bits with
    | none => rw [hob] at h; dsimp only at h; cases h
    | some bits =>
      rw [hob] at h
      dsimp only at h
      cases hnm : ar.name with
      | none => rw [hnm] at h; dsimp only at h; cases h
      | some nm =>
        rw [hnm] at h
        dsimp only at h
        cases h
        by_cases hobj : ar.obj.isSome <;>
          simp [hobj, add_templ_regs]
  · cases hnm : ar.name with
    | none => rw [hnm] at h; dsimp only at h; cases h
    | some nm =>
      rw [hnm] at h
      dsimp only at h
      cases hob : ar.obj with
      | none => rw [hob] at h; dsimp only at h; cases h
      | some oname =>
        rw [hob] at h
        dsimp only at h
        cases hlk : lookupB st oname with
        | none => rw [hlk] at h; dsimp only at h; cases h
        | some ob =>
          rw [hlk] at h
          dsimp only at h
          cases hsz : ob.addr_size with
          | none => rw [hsz] at h; dsimp only at h; cases h
          | some osize =>
            rw [hsz] at h
            cases hbits : ob.adr_bits with
            | none => rw [hbits] at h; dsimp only at h; cases h
            | some obits =>
              rw [hbits] at h
              dsimp only at h
              cases h
              refine Eq.trans
                (foldl_quad_blk_pres (fun q => q.regs) _ _ ?_ _) rfl
              intro acc i
              rfl

theorem genStage2_blk_regs {st : Registry} {b1 : wb_block}
    {s : GenAreaState} (h : genStage2 st b1 = some s) :
    s.blk.regs = b1.regs := by
  unfold genStage2 at h
  suffices hgen : ∀ (l : List wb_area) (s0 sF : GenAreaState),
      List.foldlM (genArea st) s0 l = some sF →
      sF.blk.regs = s0.blk.regs by
    exact hgen b1.areas _ s h
  intro l
  induction l with
  | nil =>
    intro s0 sF h
    rw [List.foldlM_nil] at h
    cases h
    rfl
  | cons a rest ih =>
    intro s0 sF h
    rw [List.foldlM_cons] at h
    cases hg : genArea st s0 a with
    | none =>
      rw [hg] at h
      cases h
    | some s1 =>
      rw [hg] at h
      have h' : List.foldlM (genArea st) s1 rest = some sF := h
      rw [ih s1 sF h', genArea_blk_regs hg]

theorem genFinishBlk_regs (s : GenAreaState) :
    (genFinishBlk s).regs = s.blk.regs := by
  simp only [genFinishBlk, add_templ_regs]

theorem genFinish_regs {s : GenAreaState} {r : wb_block × String × String}
    (h : genFinish s = some r) : r.1.regs = s.blk.regs := by
  unfold genFinish at h
  cases hb : (genFinishBlk s).adr_bits with
  | none => rw [hb] at h; dsimp only at h; cases h
  | some bits =>
    rw [hb] at h
    dsimp only at h
    cases hw : renderPair ((genFinishBlk s).add_templ "valid_bits"
        (toString bits) 0).templ_dict with
    | none => rw [hw] at h; dsimp only at h; cases h
    | some pr =>
      obtain ⟨fwb, fpkg⟩ := pr
      rw [hw] at h
      dsimp only at h
      cases h
      rw [add_templ_regs, genFinishBlk_regs]

/-- `gen_vhdl` never changes the registers. -/
theorem gen_vhdl_regs {st : Registry} {b : wb_block}
    {r : wb_block × String × String}
    (h : wb_block.gen_vhdl st b = some r) : r.1.regs = b.regs := by
  unfold wb_block.gen_vhdl at h
  cases hs : genStage2 st (genStage1 b) with
  | none => rw [hs] at h; cases h
  | some s =>
    rw [hs] at h
    dsimp only at h
    rw [genFinish_regs h, genStage2_blk_regs hs, genStage1_regs]

/-! ## Claim C5 -/

/-- C5: registers get their base addresses at block construction, in
declaration order starting at address 2 (addresses 0 and 1 are the
reserved ID/version words): each register's base is 2 plus the sum of the
repeat counts (`size`) of the registers declared before it, a register
declared with `reps = N` has `size = N` so it occupies
`[base, base + N)`; and neither analysis nor emission ever changes the
registers afterwards. -/
theorem C5_register_addresses :
    (∀ (name : String) (children : List BlockChild) (b : wb_block),
      wb_block.init name children = .ok b →
      RegChain 2 b.regs ∧
      (∀ i (h : i < b.regs.length),
        (b.regs.get ⟨i, h⟩).base =
          2 + ((b.regs.take i).map (fun r => r.size)).sum) ∧
      List.Forall₂ (fun (td : String × RegDecl) (r : wb_reg) =>
        r.regtype = td.1 ∧ r.name = td.2.rname ∧
        r.size = td.2.reps.getD 1) (regChildren children) b.regs) ∧
    (∀ fuel st root st', analyzeFuel fuel st root = some st' →
      ∀ n b, lookupB st n = some b →
        ∃ b', lookupB st' n = some b' ∧ b'.regs = b.regs) ∧
    (∀ st b r, wb_block.gen_vhdl st b = some r → r.1.regs = b.regs) := by
  refine ⟨?_, ?_, ?_⟩
  · intro name children b hb
    obtain ⟨_, _, _, _, _, _, _, hchain, _, hmatch⟩ := wb_block_init_ok hb
    exact ⟨hchain, regChain_base hchain, hmatch⟩
  · intro fuel st root st' hrun n b hb
    obtain ⟨b', hb', hc⟩ := analyzeFuel_core fuel st root st' hrun n b hb
    exact ⟨b', hb', hc.2.2.1⟩
  · intro st b r h
    exact gen_vhdl_regs h

theorem C5_register_addresses_witness :
    (exTdecl.regs.get ⟨3, by decide⟩).base =
      2 + ((exTdecl.regs.take 3).map (fun r => r.size)).sum ∧
    (∃ b', lookupB exStARes "t" = some b' ∧ b'.regs = exTdecl.regs) :=
  ⟨(C5_register_addresses.1 "t" exChT exTdecl rfl).2.1 3 (by decide),
    C5_register_addresses.2.1 5 exStA "t" exStARes rfl "t" exTdecl rfl⟩

/-! ## Claim C3 -/

theorem forall2_pairwise_sizeGE {l out : List wb_area}
    (h : List.Forall₂ (fun a0 a =>
      a.name = a0.name ∧ a.size = a0.size ∧ a.obj = a0.obj ∧
      a.mask = a0.mask ∧ a.reps = a0.reps ∧
      a.adr_bits = some (bit_length (a0.size - 1)) ∧
      a.total_size = pow2round a0.size ∧
      a.first_port = a0.first_port ∧ a.last_port = a0.last_port) l out)
    (hs : List.Pairwise sizeGE l) : List.Pairwise sizeGE out := by
  induction h with
  | nil => exact List.Pairwise.nil
  | cons hr hrest ih =>
    rename_i a0 a l0 out0
    rcases List.pairwise_cons.mp hs with ⟨hhead, htail⟩
    refine List.pairwise_cons.mpr ⟨?_, ih htail⟩
    intro x hx
    obtain ⟨x0, hx0, hxrel⟩ := forall2_mem_right hrest x hx
    show x.sort_key ≤ a.sort_key
    have e1 : x.size = x0.size := hxrel.2.1
    have e2 : a.size = a0.size := hr.2.1
    have := hhead x0 hx0
    simp only [sizeGE, wb_area.sort_key] at this ⊢
    omega

theorem forall2_sum_total {l out : List wb_area}
    (h : List.Forall₂ (fun a0 a =>
      a.name = a0.name ∧ a.size = a0.size ∧ a.obj = a0.obj ∧
      a.mask = a0.mask ∧ a.reps = a0.reps ∧
      a.adr_bits = some (bit_length (a0.size - 1)) ∧
      a.total_size = pow2round a0.size ∧
      a.first_port = a0.first_port ∧ a.last_port = a0.last_port) l out) :
    (out.map (fun a => a.total_size)).sum =
      (l.map (fun a => pow2round a.size)).sum := by
  induction h with
  | nil => rfl
  | cons hr hrest ih =>
    simp only [List.map_cons, List.sum_cons, ih, hr.2.2.2.2.2.2.1]

/-- C3: the allocator sorts the gathered areas by raw size descending
(stable: areas of equal raw size keep construction order), walks them with
a running cursor that starts at 0 and advances by each area's power-of-two
rounded size, and sets the block's `addr_size` to the least power of two
at least the final cursor with `adr_bits` its exponent; on concrete
scenario B (local raw size 8, subblock rounded sizes 16 and 4) the order
is [16, 8, 4], the bases 0, 16, 24, the final cursor 28, and the block
size rounds to 32 with 5 address bits. -/
theorem C3_allocator :
    (∀ fuel st st' root, (∀ p ∈ st, FreshB p.2) →
      analyzeFuel fuel st root = some st' →
      ∀ n b, lookupB st' n = some b → b.areas ≠ [] →
      List.Pairwise sizeGE b.areas ∧
      (∀ i, i < b.areas.length →
        (b.areas.getD i (wb_area.init 0 none none 0)).adr =
          ((b.areas.take i).map (fun a => a.total_size)).sum ∧
        (b.areas.getD i (wb_area.init 0 none none 0)).total_size =
          pow2round (b.areas.getD i (wb_area.init 0 none none 0)).size) ∧
      (∃ szs, szs.length = b.subblks.length ∧
        ∀ k, (b.areas.filter (fun a => a.size = k)).map areaCore =
          ((preAreas b szs).filter (fun a => a.size = k)).map areaCore) ∧
      (b.addr_size =
          some (pow2round ((b.areas.map (fun a => a.total_size)).sum)) ∧
        b.adr_bits =
          some (bit_length ((b.areas.map (fun a => a.total_size)).sum - 1)) ∧
        (b.areas.map (fun a => a.total_size)).sum ≤
          pow2round ((b.areas.map (fun a => a.total_size)).sum) ∧
        ∀ k, (b.areas.map (fun a => a.total_size)).sum ≤ 2 ^ k →
          pow2round ((b.areas.map (fun a => a.total_size)).sum) ≤ 2 ^ k)) ∧
    (exTA.areas.map (fun a => (a.name, a.size, a.adr)) =
        [(some "sx", 16, 0), (some "int_regs", 8, 16), (some "sy", 4, 24)] ∧
      (exTA.areas.map (fun a => a.total_size)).sum = 28 ∧
      exTA.addr_size = some 32 ∧ exTA.adr_bits = some 5) := by
  constructor
  · intro fuel st st' root hfresh hrun n b hb hne
    have hinv : ∀ n b, lookupB st n = some b →
        FreshB b ∨ InFlight b ∨ PostA st b :=
      fun n b hb => Or.inl (hfresh (n, b) (lookupB_mem hb))
    have hroot : ∀ b, lookupB st root = some b → b.areas = [] :=
      fun b hb => (hfresh (root, b) (lookupB_mem hb)).1
    obtain ⟨h1, h2, h3, h4, _⟩ :=
      analyzeFuel_spec fuel st root st' hinv hroot hrun
    rcases h4 n b hb with hF | ⟨hI, hb0⟩ | hP
    · exact absurd hF.1 hne
    · exact absurd (hfresh (n, b) (lookupB_mem hb0)).1 hI.1
    obtain ⟨szs, hlen, hsubs, hareas, hregbase, hsize, hbits⟩ := hP
    have hf2 := areaLoop_forall2 0 none (sortDesc (preAreas b szs))
    rw [← hareas] at hf2
    have hsum : (b.areas.map (fun a => a.total_size)).sum =
        ((sortDesc (preAreas b szs)).map (fun a => pow2round a.size)).sum :=
      forall2_sum_total hf2
    have hcur : (areaLoop 0 none (sortDesc (preAreas b szs))).2.1 =
        (b.areas.map (fun a => a.total_size)).sum := by
      rw [areaLoop_cursor, hsum]
      omega
    refine ⟨?_, ?_, ?_, ?_, ?_, ?_, ?_⟩
    · exact forall2_pairwise_sizeGE hf2 (sortDesc_sorted _)
    · intro i hi
      have hi' : i < (areaLoop 0 none
          (sortDesc (preAreas b szs))).1.length := by
        rw [← hareas]
        exact hi
      have hgd : b.areas.getD i (wb_area.init 0 none none 0) =
          b.areas.get ⟨i, hi⟩ := List.getD_eq_get _ _ hi
      have hoeq := List.get_of_eq hareas ⟨i, hi⟩
      constructor
      · rw [hgd, hoeq]
        conv_rhs => rw [hareas]
        have := areaLoop_adr_prefix 0 none (sortDesc (preAreas b szs)) i hi'
        simpa using this
      · have hlen2 : i < (sortDesc (preAreas b szs)).length := by
          have := hf2.length_eq
          omega
        have := forall2_get hf2 i hlen2 hi
        rw [hgd, this.2.2.2.2.2.2.1, this.2.1]
    · refine ⟨szs, hlen, fun k => ?_⟩
      calc (b.areas.filter (fun a => a.size = k)).map areaCore =
          ((sortDesc (preAreas b szs)).filter
            (fun a => a.size = k)).map areaCore := filter_map_areaCore hf2 k
        _ = ((preAreas b szs).filter (fun a => a.size = k)).map areaCore := by
          have := sortDesc_stable (preAreas b szs) k
          simp only [wb_area.sort_key] at this
          rw [this]
    · rw [hsize, hcur]
    · rw [hbits, hcur]
    · exact le_pow2round _
    · intro k hk
      exact pow2round_min hk
  · refine ⟨by decide, by decide, by decide, by decide⟩

theorem C3_allocator_witness :
    List.Pairwise sizeGE exTA.areas ∧
      (exTA.areas.getD 2 (wb_area.init 0 none none 0)).adr =
        ((exTA.areas.take 2).map (fun a => a.total_size)).sum := by
  have h := C3_allocator.1 5 exStA exStARes "t" (by decide) rfl "t" exTA
    rfl (by decide)
  exact ⟨h.1, (h.2.1 2 (by decide)).1⟩

/-! ## Claim C4 -/

theorem contig_layout {fs : List wb_field} :
    ∀ {off : Nat}, Contig off fs →
    ∀ i, i < fs.length →
      (fs.getD i (wb_field.init ⟨"", 0, none⟩ 0)).lsb =
        off + ((fs.take i).map (fun f => f.size)).sum ∧
      (fs.getD i (wb_field.init ⟨"", 0, none⟩ 0)).msb =
        ((fs.getD i (wb_field.init ⟨"", 0, none⟩ 0)).lsb : Int) +
          (fs.getD i (wb_field.init ⟨"", 0, none⟩ 0)).size - 1 := by
  induction fs with
  | nil => intro off _ i hi; simp at hi
  | cons f rest ih =>
    intro off hc i hi
    cases hc with
    | cons hlsb hmsb hrest =>
      cases i with
      | zero =>
        refine ⟨by simpa using hlsb, ?_⟩
        simp only [List.getD_cons_zero]
        rw [hmsb, hlsb]
      | succ j =>
        have hj : j < rest.length := Nat.lt_of_succ_lt_succ hi
        obtain ⟨h1, h2⟩ := ih hrest j hj
        refine ⟨?_, by simpa using h2⟩
        simp only [List.getD_cons_succ, List.take_succ_cons, List.map_cons,
          List.sum_cons]
        rw [h1]
        omega

theorem forall2_size_width {decls : List FieldDecl} {fs : List wb_field}
    (h : List.Forall₂ (fun (d : FieldDecl) (f : wb_field) =>
      f.size = d.width ∧ f.name = d.fname ∧
      f.ftype = d.ftype.getD "std_logic_vector") decls fs) :
    fs.map (fun f => f.size) = decls.map (fun d => d.width) := by
  induction h with
  | nil => rfl
  | cons hr _ ih => simp only [List.map_cons, ih, hr.1]

/-- C4: constructing a register packs its fields contiguously from bit 0
in declaration order (each lsb is the sum of the earlier widths,
`msb = lsb + width - 1`), raises exactly when the running offset after
some field exceeds 32 bits, and succeeds when the widths sum to exactly
32. -/
theorem C4_field_packing (tag : String) (el : RegDecl) (adr : Nat) :
    (∀ r, wb_reg.init tag el adr = .ok r →
      r.fields.length = el.fields.length ∧
      (r.fields.map (fun f => f.size) =
        el.fields.map (fun d => d.width)) ∧
      ∀ i, i < r.fields.length →
        (r.fields.getD i (wb_field.init ⟨"", 0, none⟩ 0)).lsb =
          ((el.fields.take i).map (fun d => d.width)).sum ∧
        (r.fields.getD i (wb_field.init ⟨"", 0, none⟩ 0)).msb =
          ((r.fields.getD i (wb_field.init ⟨"", 0, none⟩ 0)).lsb : Int) +
            (r.fields.getD i (wb_field.init ⟨"", 0, none⟩ 0)).size - 1) ∧
    ((∃ r, wb_reg.init tag el adr = .ok r) ↔
      ¬ ∃ i, i < el.fields.length ∧
        32 < ((el.fields.take (i + 1)).map (fun d => d.width)).sum) ∧
    ((el.fields.map (fun d => d.width)).sum = 32 →
      ∃ r, wb_reg.init tag el adr = .ok r) := by
  have hok : (∃ r, wb_reg.init tag el adr = .ok r) ↔
      (∃ fs, readFields el.rname el.fields 0 = .ok fs) := by
    unfold wb_reg.init
    cases hf : readFields el.rname el.fields 0 with
    | error e =>
      simp only [hf]
      constructor
      · rintro ⟨r, hr⟩; cases hr
      · rintro ⟨fs, hfs⟩; cases hfs
    | ok fs =>
      simp only [hf]
      exact ⟨fun _ => ⟨fs, rfl⟩, fun _ => ⟨_, rfl⟩⟩
  refine ⟨?_, ?_, ?_⟩
  · intro r hr
    obtain ⟨_, _, _, _, _, _, _, hrf⟩ := wb_reg_init_fields hr
    obtain ⟨hcontig, hmatch⟩ := readFields_ok_contig hrf
    have hlen := hmatch.length_eq
    have hmap := forall2_size_width hmatch
    refine ⟨hlen.symm, hmap, fun i hi => ?_⟩
    obtain ⟨h1, h2⟩ := contig_layout hcontig i hi
    refine ⟨?_, h2⟩
    rw [h1]
    have : (r.fields.take i).map (fun f => f.size) =
        (el.fields.take i).map (fun d => d.width) := by
      rw [List.map_take, List.map_take, hmap]
    rw [this]
    omega
  · rw [hok, readFields_isOk]
    constructor
    · rintro (h0 | hle)
      · rintro ⟨i, hi, _⟩
        rw [h0] at hi
        simp at hi
      · rintro ⟨i, hi, hgt⟩
        have := sum_take_le (l := el.fields.map (fun d => d.width)) (i + 1)
        rw [← List.map_take] at this
        omega
    · intro hne
      by_cases h0 : el.fields = []
      · exact Or.inl h0
      · right
        by_contra hgt
        apply hne
        have hpos : 0 < el.fields.length := by
          cases hfe : el.fields with
          | nil => exact absurd hfe h0
          | cons a l => simp [hfe]
        refine ⟨el.fields.length - 1, by omega, ?_⟩
        have hlen : el.fields.length - 1 + 1 = el.fields.length := by omega
        rw [hlen, List.take_length]
        omega
  · intro h32
    rw [hok, readFields_isOk]
    right
    omega

def exRegDecl32 : RegDecl :=
  { rname := "cfg", rtype := none, reps := none, ack := none, stb := none,
    fields := [⟨"lo", 16, none⟩, ⟨"mid", 15, none⟩, ⟨"hi", 1, none⟩] }

theorem C4_field_packing_witness :
    ((wb_reg.init "creg" exRegDecl32 0).toOption).isSome = true := by
  obtain ⟨r, hr⟩ := (C4_field_packing "creg" exRegDecl32 0).2.2 (by decide)
  rw [hr]
  rfl

/-! ## Claim C8 -/

theorem forall2_filter_obj_len {l out : List wb_area}
    (h : List.Forall₂ (fun a0 a =>
      a.name = a0.name ∧ a.size = a0.size ∧ a.obj = a0.obj ∧
      a.mask = a0.mask ∧ a.reps = a0.reps ∧
      a.adr_bits = some (bit_length (a0.size - 1)) ∧
      a.total_size = pow2round a0.size ∧
      a.first_port = a0.first_port ∧ a.last_port = a0.last_port) l out) :
    (out.filter (fun a => a.obj = none)).length =
      (l.filter (fun a => a.obj = none)).length := by
  induction l generalizing out with
  | nil => cases h; rfl
  | cons x xs ih =>
    cases h with
    | cons hr hrest =>
      rename_i y ys
      simp only [List.filter_cons, hr.2.2.1]
      by_cases hk : x.obj = none
      · rw [if_pos (by simp [hk]), if_pos (by simp [hk])]
        simp [ih hrest]
      · rw [if_neg (by simp [hk]), if_neg (by simp [hk])]
        exact ih hrest

/-- From a fresh start, each block in the registry after analysis is
fresh, in flight (impossible) or fully analyzed. -/
theorem analyzed_inv_of_run (fuel : Nat) (st : Registry) (root : String)
    (st' : Registry) (hfresh : ∀ p ∈ st, FreshB p.2)
    (hrun : analyzeFuel fuel st root = some st') :
    ∀ n b, lookupB st' n = some b → FreshB b ∨ PostA st' b := by
  have hinv : ∀ n b, lookupB st n = some b →
      FreshB b ∨ InFlight b ∨ PostA st b :=
    fun n b hb => Or.inl (hfresh (n, b) (lookupB_mem hb))
  have hroot : ∀ b, lookupB st root = some b → b.areas = [] :=
    fun b hb => (hfresh (root, b) (lookupB_mem hb)).1
  obtain ⟨h1, h2, h3, h4, _⟩ :=
    analyzeFuel_spec fuel st root st' hinv hroot hrun
  intro n b hb
  rcases h4 n b hb with hF | ⟨hI, hb0⟩ | hP
  · exact Or.inl hF
  · exact absurd (hfresh (n, b) (lookupB_mem hb0)).1 hI.1
  · exact Or.inr hP

/-- C8: analysis runs at most once per block type: (a) analyzing a parent
whose references reach an already-analyzed block leaves that block's
single analysis result untouched (the guard is the non-empty `areas`
list), and (b) from a fresh start every block ends with an `areas` list
that is either still empty or exactly one local-register entry plus one
entry per subblock reference — never duplicated — with `areas` non-empty
exactly when the block's analysis completed (`addr_size` set). -/
theorem C8_memoization :
    (∀ fuel st root st',
      (∀ n b, lookupB st n = some b →
        FreshB b ∨ InFlight b ∨ PostA st b) →
      (∀ b, lookupB st root = some b → b.areas = []) →
      analyzeFuel fuel st root = some st' →
      ∀ n b, lookupB st n = some b → b.areas ≠ [] →
        lookupB st' n = some b) ∧
    (∀ fuel st root st', (∀ p ∈ st, FreshB p.2) →
      analyzeFuel fuel st root = some st' →
      ∀ n b, lookupB st' n = some b →
        (b.areas = [] ∨
          (b.areas.length = 1 + b.subblks.length ∧
            (b.areas.filter (fun a => a.obj = none)).length = 1)) ∧
        (b.areas ≠ [] ↔ b.addr_size.isSome = true)) := by
  constructor
  · intro fuel st root st' hinv hroot hrun
    exact (analyzeFuel_spec fuel st root st' hinv hroot hrun).1
  · intro fuel st root st' hfresh hrun n b hb
    rcases analyzed_inv_of_run fuel st root st' hfresh hrun n b hb with
      hF | hP
    · refine ⟨Or.inl hF.1, ?_⟩
      rw [hF.1, hF.2.1]
      simp
    · have hPkeep := hP
      obtain ⟨szs, hlen, hsubs, hareas, _, hsize, _⟩ := hP
      have hf2 := areaLoop_forall2 0 none (sortDesc (preAreas b szs))
      rw [← hareas] at hf2
      constructor
      · refine Or.inr ⟨?_, ?_⟩
        · rw [hareas, areaLoop_length, sortDesc_length]
          simp only [preAreas, List.length_cons, List.length_zipWith, hlen]
          omega
        · rw [forall2_filter_obj_len hf2]
          have hperm := (sortDesc_perm (preAreas b szs)).filter
            (fun a => a.obj = none)
          rw [hperm.length_eq]
          have hz : (List.zipWith subArea b.subblks szs).filter
              (fun a => a.obj = none) = [] := by
            rw [List.filter_eq_nil_iff]
            intro a ha
            have := zipWith_subArea_obj a ha
            simp only [decide_eq_true_eq]
            intro hnone
            rw [hnone] at this
            cases this
          simp [preAreas, List.filter_cons, hz, wb_area.init]
      · constructor
        · intro _
          rw [hsize]
          rfl
        · intro _
          exact PostA_areas_ne hPkeep
  
def exStA1 : Registry := (analyzeFuel 5 exStA "x").getD []

def exStA2 : Registry := (analyzeFuel 5 exStA1 "t").getD []

def exXan : wb_block := (lookupB exStA1 "x").getD emptyBlk

def exTdecl1 : wb_block := (lookupB exStA1 "t").getD emptyBlk

theorem C8_memoization_witness :
    lookupB exStA2 "x" = some exXan ∧
      (exTB.areas.length = 1 + exTB.subblks.length ∧
        (exTB.areas.filter (fun a => a.obj = none)).length = 1) := by
  constructor
  · refine C8_memoization.1 5 exStA1 "t" exStA2
      (fun n b hb =>
        ((analyzed_inv_of_run 5 exStA "x" exStA1 (by decide) rfl) n b
          hb).elim Or.inl (fun hp => Or.inr (Or.inr hp))) ?_ rfl
      "x" exXan rfl (by decide)
    intro b hb
    have hbe : exTdecl1 = b :=
      Option.some.inj ((rfl : lookupB exStA1 "t" = some exTdecl1).symm.trans
        hb)
    rw [← hbe]
    decide
  · have h := (C8_memoization.2 5 exStB "u" exStBRes (by decide) rfl "u"
      exTB rfl).1
    rcases h with h0 | h
    · exact absurd h0 (by decide)
    · exact h

/-! ## Claim C6 -/

theorem mem_zipWith_subArea {subs : List SubblkDecl} {szs : List Nat}
    {a : wb_area} (h : a ∈ List.zipWith subArea subs szs) :
    ∃ i, ∃ (hi : i < subs.length), i < szs.length ∧
      a = subArea (subs.get ⟨i, hi⟩) (szs.getD i 0) := by
  induction subs generalizing szs with
  | nil => simp at h
  | cons sb rest ih =>
    cases szs with
    | nil => simp at h
    | cons sz szs' =>
      rcases List.mem_cons.mp h with rfl | h
      · exact ⟨0, by simp, by simp, rfl⟩
      · obtain ⟨i, hi, hil, he⟩ := ih h
        exact ⟨i + 1, by simpa using hi, by simpa using hil, he⟩

/-- The inner loop of the repeated-subblock branch of the area pass: the
`reps` appended ports start at the loop's base and stride by the
referenced block's `addr_size`. -/
theorem genAreaRepFold (nm : String) (osize obits : Nat) :
    ∀ (k : Nat) (acc : wb_block × List (Nat × Nat) × Nat × Nat),
      (((List.range k).foldl
        (fun acc (i : Nat) =>
          ((acc.1.add_templ "cont_assigns" (nm ++ "_wb_s_i(" ++
              toString i ++ ")  <= " ++ "wb_s_o(" ++
              toString acc.2.2.2 ++ ");\n") 4 : wb_block),
           acc.2.1 ++ [(acc.2.2.1, obits)], acc.2.2.1 + osize,
           acc.2.2.2 + 1)) acc).2.1 =
        acc.2.1 ++ (List.range k).map
          (fun i => (acc.2.2.1 + i * osize, obits))) ∧
      (((List.range k).foldl
        (fun acc (i : Nat) =>
          ((acc.1.add_templ "cont_assigns" (nm ++ "_wb_s_i(" ++
              toString i ++ ")  <= " ++ "wb_s_o(" ++
              toString acc.2.2.2 ++ ");\n") 4 : wb_block),
           acc.2.1 ++ [(acc.2.2.1, obits)], acc.2.2.1 + osize,
           acc.2.2.2 + 1)) acc).2.2.1 = acc.2.2.1 + k * osize) := by
  intro k
  induction k with
  | zero => intro acc; simp
  | succ j ih =>
    intro acc
    rw [List.range_succ, List.foldl_append]
    obtain ⟨ih1, ih2⟩ := ih acc
    constructor
    · simp only [List.foldl_cons, List.foldl_nil]
      rw [ih1, ih2, List.map_append]
      simp [List.append_assoc]
    · simp only [List.foldl_cons, List.foldl_nil]
      rw [ih2]
      ring

/-- C6: every subblock-reference area's raw size is the referenced
block's rounded `addr_size` times the repetition count, that rounded size
is a power of two `1 <<< bits`, and the emitter's area pass assigns the
`reps` instances consecutive windows starting at the area's base with
stride the rounded size, each with decode-mask exponent `bits`
(mask `= (1 <<< bits) - 1 = rounded - 1`). -/
theorem C6_subblock_windows (fuel : Nat) (st st' : Registry) (root : String)
    (hfresh : ∀ p ∈ st, FreshB p.2)
    (hrun : analyzeFuel fuel st root = some st') :
    ∀ n b, lookupB st' n = some b → ∀ a ∈ b.areas, ∀ t, a.obj = some t →
      ∃ sub sz bits, lookupB st' t = some sub ∧
        sub.addr_size = some sz ∧ sub.adr_bits = some bits ∧
        sz = 1 <<< bits ∧
        a.size = sz * a.reps ∧
        (1 <<< bits) - 1 = sz - 1 ∧
        (∀ s s', genArea st' s a = some s' →
          s'.ports = s.ports ++
            (List.range a.reps).map (fun i => (a.adr + i * sz, bits))) := by
  intro n b hb a ha t hobj
  rcases analyzed_inv_of_run fuel st root st' hfresh hrun n b hb with
    hF | hP
  · rw [hF.1] at ha
    cases ha
  · have hPkeep := hP
    obtain ⟨szs, hlen, hsubs, hareas, _⟩ := hP
    have hf2 := areaLoop_forall2 0 none (sortDesc (preAreas b szs))
    rw [← hareas] at hf2
    obtain ⟨a0, ha0, hrel⟩ := forall2_mem_right hf2 a ha
    obtain ⟨e1, e2, e3, _, e5, e6, e7, _⟩ := hrel
    have ha0m : a0 ∈ preAreas b szs := mem_sortDesc.mp ha0
    rcases List.mem_cons.mp ha0m with rfl | hzm
    · rw [e3] at hobj
      cases hobj
    obtain ⟨i, hi, hil, ha0e⟩ := mem_zipWith_subArea hzm
    obtain ⟨sub, hlook, hsne, hssz⟩ := hsubs i hi
    have hbt : (b.subblks.get ⟨i, hi⟩).btype = t := by
      rw [ha0e] at e3
      rw [e3] at hobj
      exact Option.some.inj hobj
    rw [hbt] at hlook
    -- the referenced block is fully analyzed, so its size is the rounded
    -- power of two
    rcases analyzed_inv_of_run fuel st root st' hfresh hrun t sub hlook
      with hFs | hPs
    · rw [hFs.2.1] at hssz
      cases hssz
    obtain ⟨szs2, _, _, _, _, hsize2, hbits2⟩ := hPs
    rw [hssz] at hsize2
    have hszval : szs.getD i 0 =
        pow2round (areaLoop 0 none
          (sortDesc (preAreas sub szs2))).2.1 := Option.some.inj hsize2
    refine ⟨sub, szs.getD i 0,
      bit_length ((areaLoop 0 none
        (sortDesc (preAreas sub szs2))).2.1 - 1), hlook, hssz, hbits2,
      by rw [hszval]; rfl, ?_, by rw [hszval]; rfl, ?_⟩
    · rw [e2, e5, ha0e]
      rfl
    · -- the emitter's windows
      intro s s' hgen
      have hreps : a.reps = (b.subblks.get ⟨i, hi⟩).reps.getD 1 := by
        rw [e5, ha0e]
        rfl
      have hsz : a.size = szs.getD i 0 * a.reps := by
        rw [e2, ha0e, hreps]
        rfl
      have hbitsa : a.adr_bits = some (bit_length (a.size - 1)) := by
        rw [e6, e2]
      unfold genArea at hgen
      split at hgen
      · -- reps = 1: a single window
        rename_i hr1
        rw [hbitsa] at hgen
        dsimp only at hgen
        cases hnm : a.name with
        | none => rw [hnm] at hgen; dsimp only at hgen; cases hgen
        | some nm =>
          rw [hnm] at hgen
          dsimp only at hgen
          cases hgen
          show s.ports ++ [(a.adr, bit_length (a.size - 1))] = _
          rw [hr1]
          have : a.size = szs.getD i 0 := by
            rw [hsz, hr1]
            omega
          rw [this, hszval]
          simp [bit_length_pow2_sub_one, pow2round_eq_pow, List.range_succ,
            List.range_zero]
      · -- reps ≠ 1: the inner window loop
        cases hnm : a.name with
        | none => rw [hnm] at hgen; dsimp only at hgen; cases hgen
        | some nm =>
          rw [hnm] at hgen
          dsimp only at hgen
          rw [hobj] at hgen
          dsimp only at hgen
          rw [hlook] at hgen
          dsimp only at hgen
          rw [hssz] at hgen
          cases hbb : sub.adr_bits with
          | none => rw [hbb] at hgen; dsimp only at hgen; cases hgen
          | some obits =>
            rw [hbb] at hgen
            dsimp only at hgen
            cases hgen
            have hob : obits = bit_length ((areaLoop 0 none
                (sortDesc (preAreas sub szs2))).2.1 - 1) := by
              rw [hbits2] at hbb
              exact (Option.some.inj hbb).symm
            refine Eq.trans (genAreaRepFold nm (szs.getD i 0) obits
              a.reps (s.blk.add_templ "subblk_busses" _ 4, s.ports,
                a.adr, s.n_ports)).1 ?_
            rw [hob]
  
def exSyArea : wb_area := exTB.areas.getD 1 (wb_area.init 0 none none 1)

def exS0 : GenAreaState :=
  { blk := emptyBlk, newAreas := [], ports := [], n_ports := 0 }

def exS6 : GenAreaState := (genArea exStBRes exS0 exSyArea).getD exS0

def exYan : wb_block := (lookupB exStBRes "y").getD emptyBlk

theorem C6_subblock_windows_witness :
    (∀ p ∈ exStB, FreshB p.2) ∧ exSyArea ∈ exTB.areas ∧
    exSyArea.obj = some "y" ∧ exSyArea.reps = 3 ∧
    exS6.ports = [(16, 2), (20, 2), (24, 2)] := by
  refine ⟨by decide, by decide, rfl, rfl, ?_⟩
  obtain ⟨sub, sz, bits, h1, h2, h3, _, _, _, h7⟩ :=
    C6_subblock_windows 5 exStB exStBRes "u" (by decide) rfl "u" exTB rfl
      exSyArea (by decide) "y" rfl
  have hsub : sub = exYan := by
    rw [show lookupB exStBRes "y" = some exYan from rfl] at h1
    exact (Option.some.inj h1).symm
  rw [hsub] at h2 h3
  have hsz : sz = 4 := (Option.some.inj
    ((show exYan.addr_size = some 4 from rfl).symm.trans h2)).symm
  have hbits : bits = 2 := (Option.some.inj
    ((show exYan.adr_bits = some 2 from rfl).symm.trans h3)).symm
  have hports := h7 exS0 exS6
    (show genArea exStBRes exS0 exSyArea = some exS6 from rfl)
  rw [hports, hsz, hbits]
  decide

/-! ## Claim C9: semantics of the emitted conversion functions

`wb_reg.gen_vhdl` (lines 182-208) emits, for a fielded register, a record
type and two conversion functions: `stlv2t_<name>` reads each record
component from the slice `x(msb downto lsb)`, and `t_<name>2stlv` starts
from an all-zero word and writes each field back to `res(msb downto lsb)`.
We give the bit-level meaning of that emitted text on natural-number
words. -/

/-- Width of the emitted slice `x(msb downto lsb)`. -/
def sliceWidth (f : wb_field) : Nat := (f.msb - (f.lsb : Int) + 1).toNat

/-- `res.<name> := x(msb downto lsb)` — the value of one slice. -/
def fieldGet (x : Nat) (f : wb_field) : Nat :=
  (x >>> f.lsb) % 2 ^ sliceWidth f

/-- `stlv2t_<name>`: one record component per field, in field order. -/
def stlv2rec (fs : List wb_field) (x : Nat) : List Nat :=
  fs.map (fieldGet x)

/-- `res(lsb + w - 1 downto lsb) := v`, all other bits of `res` kept. -/
def sliceSet (res lsb w v : Nat) : Nat :=
  res % 2 ^ lsb + v * 2 ^ lsb + ((res >>> (lsb + w)) <<< (lsb + w))

/-- `t_<name>2stlv`: `res := (others => \x27 0 \x27 )` then one slice
assignment per field. -/
def rec2stlv (fs : List wb_field) (vs : List Nat) : Nat :=
  (fs.zip vs).foldl
    (fun res p => sliceSet res p.1.lsb (sliceWidth p.1) p.2) 0

theorem sliceWidth_eq_size {f : wb_field} {off : Nat} (hlsb : f.lsb = off)
    (hmsb : f.msb = (off : Int) + f.size - 1) : sliceWidth f = f.size := by
  unfold sliceWidth
  rw [hlsb, hmsb]
  omega

theorem forall2_map_eq {α β : Type} {g : α → β} {l : List α} {l2 : List β}
    (h : List.Forall₂ (fun a b => g a = b) l l2) : l.map g = l2 := by
  induction h with
  | nil => rfl
  | cons hr _ ih => simp only [List.map_cons, hr, ih]

/-- The pack loop of `t_<name>2stlv` over contiguously packed fields:
starting from an accumulator below `2 ^ off`, the result is bounded by
the total width, agrees with the accumulator on the low bits, and every
field's slice reads back its packed value. -/
theorem packLoop (fs : List wb_field) :
    ∀ (off : Nat) (vs : List Nat) (acc : Nat), Contig off fs →
      List.Forall₂ (fun f v => v < 2 ^ f.size) fs vs →
      acc < 2 ^ off →
      ((fs.zip vs).foldl
          (fun res p => sliceSet res p.1.lsb (sliceWidth p.1) p.2) acc) <
        2 ^ (off + (fs.map (fun f => f.size)).sum) ∧
      (∀ m, m ≤ off →
        ((fs.zip vs).foldl
            (fun res p => sliceSet res p.1.lsb (sliceWidth p.1) p.2) acc) %
          2 ^ m = acc % 2 ^ m) ∧
      List.Forall₂ (fun f v =>
        fieldGet ((fs.zip vs).foldl
          (fun res p => sliceSet res p.1.lsb (sliceWidth p.1) p.2) acc)
          f = v) fs vs := by
  induction fs with
  | nil =>
    intro off vs acc _ hf2 hacc
    cases hf2
    exact ⟨by simpa using hacc, fun m _ => rfl, List.Forall₂.nil⟩
  | cons f rest ih =>
    intro off vs acc hc hf2 hacc
    cases hc with
    | cons hlsb hmsb hcr =>
      cases hf2 with
      | cons hv hfr =>
        rename_i v vr
        have hw : sliceWidth f = f.size := sliceWidth_eq_size hlsb hmsb
        have hpow : (0:Nat) < 2 ^ off := Nat.pos_pow_of_pos off (by decide)
        have hacc1 : sliceSet acc f.lsb (sliceWidth f) v =
            acc + v * 2 ^ off := by
          unfold sliceSet
          rw [hw, hlsb, Nat.mod_eq_of_lt hacc, Nat.shiftRight_eq_div_pow,
            Nat.div_eq_of_lt (lt_of_lt_of_le hacc
              (Nat.pow_le_pow_right (by decide) (Nat.le_add_right _ _))),
            Nat.zero_shiftLeft]
          omega
        have hacc1lt : acc + v * 2 ^ off < 2 ^ (off + f.size) := by
          have h1 : acc + v * 2 ^ off < (v + 1) * 2 ^ off := by
            nlinarith [hacc]
          have h2 : (v + 1) * 2 ^ off ≤ 2 ^ f.size * 2 ^ off := by
            have : v + 1 ≤ 2 ^ f.size := hv
            exact Nat.mul_le_mul_right _ this
          calc acc + v * 2 ^ off < (v + 1) * 2 ^ off := h1
            _ ≤ 2 ^ f.size * 2 ^ off := h2
            _ = 2 ^ (off + f.size) := by rw [← pow_add]; ring_nf
        obtain ⟨hlt, hmod, hf2get⟩ :=
          ih (off + f.size) vr (acc + v * 2 ^ off) hcr hfr hacc1lt
        have hfold : ((f :: rest).zip (v :: vr)).foldl
            (fun res p => sliceSet res p.1.lsb (sliceWidth p.1) p.2) acc =
            (rest.zip vr).foldl
              (fun res p => sliceSet res p.1.lsb (sliceWidth p.1) p.2)
              (acc + v * 2 ^ off) := by
          simp only [List.zip_cons_cons, List.foldl_cons, hacc1]
        refine ⟨?_, ?_, ?_⟩
        · rw [hfold]
          simpa [Nat.add_assoc] using hlt
        · intro m hm
          rw [hfold, hmod m (le_trans hm (Nat.le_add_right _ _))]
          obtain ⟨c, hcv⟩ : 2 ^ m ∣ v * 2 ^ off :=
            Dvd.dvd.mul_left (pow_dvd_pow 2 hm) v
          rw [hcv, ← Nat.add_mul_mod_self_left acc (2 ^ m) c]
        · rw [hfold]
          refine List.Forall₂.cons ?_ hf2get
          have hR := hmod (off + f.size) le_rfl
          unfold fieldGet
          rw [hw, hlsb, Nat.shiftRight_eq_div_pow,
            Nat.div_mod_eq_mod_mul_div, ← pow_add, hR,
            Nat.mod_eq_of_lt hacc1lt,
            Nat.add_mul_div_right _ _ hpow, Nat.div_eq_of_lt hacc]
          omega

/-- C9: for any successfully constructed register, the emitted
conversion pair round-trips: packing any representable field values with
`t_<name>2stlv` (which zero-fills all bits above the total field width,
witnessed by the `2 ^ total` bound on the packed word) and unpacking via
`stlv2t_<name>` returns the original values, each field read from its
declared `[lsb, msb]` slice. -/
theorem C9_pack_unpack (tag : String) (el : RegDecl) (adr : Nat)
    (r : wb_reg) (hr : wb_reg.init tag el adr = .ok r)
    (hne : r.fields ≠ []) :
    ∀ vs, List.Forall₂ (fun f v => v < 2 ^ f.size) r.fields vs →
      stlv2rec r.fields (rec2stlv r.fields vs) = vs ∧
      rec2stlv r.fields vs <
        2 ^ ((r.fields.map (fun f => f.size)).sum) := by
  intro vs hvs
  obtain ⟨_, _, _, _, _, _, _, hrf⟩ := wb_reg_init_fields hr
  obtain ⟨hcontig, _⟩ := readFields_ok_contig hrf
  obtain ⟨hlt, _, hf2get⟩ :=
    packLoop r.fields 0 vs 0 hcontig hvs (by decide)
  constructor
  · exact forall2_map_eq hf2get
  · simpa using hlt

def exReg32 : wb_reg := ((wb_reg.init "creg" exRegDecl32 0).toOption).getD
  { regtype := "", rtype := "", base := 0, size := 0, name := "", ack := 0,
    stb := 0, fields := [] }

theorem C9_pack_unpack_witness :
    exReg32.fields ≠ [] ∧
    stlv2rec exReg32.fields (rec2stlv exReg32.fields [1000, 77, 1]) =
      [1000, 77, 1] ∧
    rec2stlv exReg32.fields [1000, 77, 1] < 2 ^ 32 := by
  have hf2 : List.Forall₂ (fun (f : wb_field) v => v < 2 ^ f.size)
      exReg32.fields [1000, 77, 1] := by
    rw [show exReg32.fields =
      [⟨"lo", 0, 16, 15, "std_logic_vector"⟩,
       ⟨"mid", 16, 15, 30, "std_logic_vector"⟩,
       ⟨"hi", 31, 1, 31, "std_logic_vector"⟩] from rfl]
    exact .cons (by decide) (.cons (by decide) (.cons (by decide) .nil))
  have h := C9_pack_unpack "creg" exRegDecl32 0 exReg32 rfl (by decide)
    [1000, 77, 1] hf2
  exact ⟨by decide, h.1, h.2⟩

/-! ## Claim C10: the decode keys and `reg_base` -/

theorem str_append_empty (s : String) : s ++ "" = s := by
  cases s
  show String.mk _ = String.mk _
  simp [String.append]

theorem str_append_assoc (a b c : String) :
    a ++ b ++ c = a ++ (b ++ c) := by
  cases a; cases b; cases c
  show String.mk _ = String.mk _
  simp [String.append]

def strJoin : List String → String
  | [] => ""
  | x :: xs => x ++ strJoin xs

theorem lookup_cons (k k1 v1 : String) (rest : List (String × String)) :
    List.lookup k ((k1, v1) :: rest) =
      if k = k1 then some v1 else List.lookup k rest := by
  by_cases h : k = k1
  · rw [if_pos h]
    show (match k == k1 with
      | true => some v1
      | false => List.lookup k rest) = some v1
    rw [show (k == k1) = true from by simp [h]]
  · rw [if_neg h]
    show (match k == k1 with
      | true => some v1
      | false => List.lookup k rest) = List.lookup k rest
    rw [show (k == k1) = false from by simp [h]]

theorem templGet_templSet_self (d : List (String × String))
    (k v : String) : templGet (templSet d k v) k = some v := by
  induction d with
  | nil =>
    show List.lookup k [(k, v)] = some v
    rw [lookup_cons, if_pos rfl]
  | cons p rest ih =>
    obtain ⟨k1, v1⟩ := p
    by_cases h : k1 = k
    · subst h
      simp only [templSet, if_pos rfl]
      show List.lookup k1 ((k1, v) :: rest) = some v
      rw [lookup_cons, if_pos rfl]
    · simp only [templSet, if_neg h]
      show List.lookup k ((k1, v1) :: templSet rest k v) = some v
      rw [lookup_cons, if_neg (Ne.symm h)]
      exact ih

theorem templGet_templSet_ne (d : List (String × String))
    (k v k2 : String) (h : k2 ≠ k) :
    templGet (templSet d k v) k2 = templGet d k2 := by
  induction d with
  | nil =>
    show List.lookup k2 [(k, v)] = List.lookup k2 []
    rw [lookup_cons, if_neg h]
  | cons p rest ih =>
    obtain ⟨k1, v1⟩ := p
    by_cases h1 : k1 = k
    · subst h1
      simp only [templSet, if_pos rfl]
      show List.lookup k2 ((k1, v) :: rest) =
        List.lookup k2 ((k1, v1) :: rest)
      rw [lookup_cons, lookup_cons, if_neg h, if_neg h]
    · simp only [templSet, if_neg h1]
      show List.lookup k2 ((k1, v1) :: templSet rest k v) =
        List.lookup k2 ((k1, v1) :: rest)
      rw [lookup_cons, lookup_cons]
      by_cases h2 : k2 = k1
      · rw [if_pos h2, if_pos h2]
      · rw [if_neg h2, if_neg h2]
        exact ih

/-- The per-line indentation `add_templ` applies to an appended value. -/
def indentText (ind : Nat) (value : String) : String :=
  String.join ((splitLines value).map
    (fun ln => String.mk (List.replicate ind ' ') ++ ln))

theorem addTemplD_get_self (d : List (String × String)) (k v : String)
    (ind : Nat) : templGet (addTemplD d k v ind) k =
      some ((templGet d k).getD "" ++ indentText ind v) := by
  unfold addTemplD
  dsimp only
  cases hk : templGet d k with
  | none =>
    simp only [Option.isNone_none, Option.getD_none]
    rw [if_pos trivial, templGet_templSet_self d k ""]
    simp only [Option.getD_some]
    exact templGet_templSet_self _ k _
  | some s =>
    simp only [Option.isNone_some, Option.getD_some]
    rw [if_neg (by simp)]
    simp only [hk, Option.getD_some]
    exact templGet_templSet_self _ k _

theorem addTemplD_get_ne (d : List (String × String)) (k v : String)
    (ind : Nat) (k2 : String) (h : k2 ≠ k) :
    templGet (addTemplD d k v ind) k2 = templGet d k2 := by
  unfold addTemplD
  dsimp only
  cases hk : templGet d k with
  | none =>
    simp only [Option.isNone_none]
    rw [if_pos trivial, templGet_templSet_ne _ _ _ _ h,
      templGet_templSet_ne _ _ _ _ h]
  | some s =>
    simp only [Option.isNone_some]
    rw [if_neg (by simp), templGet_templSet_ne _ _ _ _ h]

theorem add_templ_dict (b : wb_block) (k v : String) (i : Nat) :
    (b.add_templ k v i).templ_dict = addTemplD b.templ_dict k v i := rfl

theorem add_templ_get_ne (b : wb_block) (k v : String) (i : Nat)
    (k2 : String) (h : k2 ≠ k) :
    templGet (b.add_templ k v i).templ_dict k2 =
      templGet b.templ_dict k2 := by
  rw [add_templ_dict]
  exact addTemplD_get_ne _ _ _ _ _ h

/-- `wb_reg.gen_vhdl` at the dictionary level. -/
def regDictF (d : List (String × String)) (r : wb_reg) :
    List (String × String) :=
  let d := addTemplD d "p_package" r.pkgDecl 0
  let d := addTemplD d "p_package_body" r.pkgBody 0
  let d := addTemplD d "signal_ports" r.portDecl 4
  (List.range r.size).foldl
    (fun d i => addTemplD d "register_access" (r.accessArm i) 10) d

/-- `genStage1` at the dictionary level. -/
def stage1Dict (d : List (String × String)) (regs : List wb_reg) :
    List (String × String) :=
  let d := addTemplD d "p_package" "" 0
  let d := addTemplD d "p_package_body" "" 0
  let d := addTemplD d "signal_decls" "" 0
  let d := addTemplD d "register_access" "" 0
  let d := addTemplD d "subblk_busses" "" 0
  regs.foldl regDictF d

theorem foldl_add_templ_dict {α : Type} (key : String) (g : α → String)
    (ind : Nat) (l : List α) :
    ∀ p : wb_block, (l.foldl (fun p a => p.add_templ key (g a) ind) p) =
      { p with templ_dict :=
        l.foldl (fun d a => addTemplD d key (g a) ind) p.templ_dict } := by
  induction l with
  | nil => intro p; rfl
  | cons a rest ih =>
    intro p
    rw [List.foldl_cons, ih]
    rfl

theorem wb_reg_gen_vhdl_dict (r : wb_reg) (p : wb_block) :
    wb_reg.gen_vhdl r p = { p with templ_dict := regDictF p.templ_dict r }
    := by
  show (List.range r.size).foldl
    (fun p i => p.add_templ "register_access" (r.accessArm i) 10)
    (((p.add_templ "p_package" r.pkgDecl 0).add_templ "p_package_body"
      r.pkgBody 0).add_templ "signal_ports" r.portDecl 4) = _
  rw [foldl_add_templ_dict "register_access" r.accessArm 10]
  rfl

set_option maxHeartbeats 1000000 in
theorem genStage1_dict (b : wb_block) :
    genStage1 b = { b with templ_dict := stage1Dict b.templ_dict b.regs }
    := by
  unfold genStage1
  have h : ∀ (regs : List wb_reg) (p : wb_block),
      regs.foldl (fun p r => wb_reg.gen_vhdl r p) p =
        { p with templ_dict := regs.foldl regDictF p.templ_dict } := by
    intro regs
    induction regs with
    | nil => intro p; rfl
    | cons r rest ih =>
      intro p
      rw [List.foldl_cons, wb_reg_gen_vhdl_dict, ih]
      rfl
  exact (h b.regs _).trans rfl

/-- The decode arms contributed by one register: one `when` arm per
repetition, each indented by ten spaces. -/
def armsText (r : wb_reg) : String :=
  strJoin ((List.range r.size).map (fun i => indentText 10 (r.accessArm i)))

/-- The full content of the `register_access` template entry. -/
def regAccessText (regs : List wb_reg) : String :=
  strJoin (regs.map armsText)

theorem foldl_addTemplD_get {α : Type} (key : String) (g : α → String)
    (ind : Nat) (l : List α) :
    ∀ (d : List (String × String)) (s : String),
      templGet d key = some s →
      templGet (l.foldl (fun d a => addTemplD d key (g a) ind) d) key =
        some (s ++ strJoin (l.map (fun a => indentText ind (g a)))) := by
  induction l with
  | nil =>
    intro d s h
    simpa [strJoin, str_append_empty] using h
  | cons a rest ih =>
    intro d s h
    rw [List.foldl_cons]
    have h1 : templGet (addTemplD d key (g a) ind) key =
        some (s ++ indentText ind (g a)) := by
      rw [addTemplD_get_self, h]
      rfl
    rw [ih _ _ h1]
    simp only [List.map_cons, strJoin, str_append_assoc]

theorem regDictF_get (d : List (String × String)) (r : wb_reg)
    {s : String} (h : templGet d "register_access" = some s) :
    templGet (regDictF d r) "register_access" = some (s ++ armsText r)
    := by
  unfold regDictF
  refine foldl_addTemplD_get "register_access" r.accessArm 10 _ _ s ?_
  rw [addTemplD_get_ne _ _ _ _ _ (by decide),
    addTemplD_get_ne _ _ _ _ _ (by decide),
    addTemplD_get_ne _ _ _ _ _ (by decide), h]

theorem foldl_regDictF_get (regs : List wb_reg) :
    ∀ (d : List (String × String)) (s : String),
      templGet d "register_access" = some s →
      templGet (regs.foldl regDictF d) "register_access" =
        some (s ++ regAccessText regs) := by
  induction regs with
  | nil =>
    intro d s h
    simpa [regAccessText, strJoin, str_append_empty] using h
  | cons r rest ih =>
    intro d s h
    rw [List.foldl_cons, ih _ _ (regDictF_get d r h)]
    simp only [regAccessText, List.map_cons, strJoin, str_append_assoc]

theorem stage1Dict_get (d : List (String × String)) (regs : List wb_reg) :
    templGet (stage1Dict d regs) "register_access" =
      some ((templGet d "register_access").getD "" ++
        regAccessText regs) := by
  unfold stage1Dict
  refine foldl_regDictF_get regs _ _ ?_
  rw [addTemplD_get_ne _ _ _ _ _ (by decide), addTemplD_get_self,
    addTemplD_get_ne _ _ _ _ _ (by decide),
    addTemplD_get_ne _ _ _ _ _ (by decide),
    addTemplD_get_ne _ _ _ _ _ (by decide)]
  rw [show indentText 0 "" = "" from rfl, str_append_empty]

theorem foldl_quad_pres {α β : Type} (P : wb_block → β)
    (f : wb_block × List (Nat × Nat) × Nat × Nat → α →
      wb_block × List (Nat × Nat) × Nat × Nat) (l : List α)
    (hf : ∀ acc a, P (f acc a).1 = P acc.1) :
    ∀ acc, P ((l.foldl f acc).1) = P acc.1 := by
  induction l with
  | nil => intro acc; rfl
  | cons a rest ih => intro acc; rw [List.foldl_cons, ih, hf]

theorem genArea_get_ra {st : Registry} {s s' : GenAreaState}
    {ar : wb_area} (h : genArea st s ar = some s') :
    templGet s'.blk.templ_dict "register_access" =
      templGet s.blk.templ_dict "register_access" := by
  unfold genArea at h
  split at h
  · cases hob : ar.adr_bits with
    | none => rw [hob] at h; dsimp only at h; cases h
    | some bits =>
      rw [hob] at h
      dsimp only at h
      cases hnm : ar.name with
      | none => rw [hnm] at h; dsimp only at h; cases h
      | some nm =>
        rw [hnm] at h
        dsimp only at h
        cases h
        dsimp only
        rw [add_templ_get_ne _ _ _ _ _ (by decide)]
        by_cases hobj : ar.obj.isSome
        · rw [if_pos hobj, add_templ_get_ne _ _ _ _ _ (by decide)]
        · rw [if_neg hobj]
  · cases hnm : ar.name with
    | none => rw [hnm] at h; dsimp only at h; cases h
    | some nm =>
      rw [hnm] at h
      dsimp only at h
      cases hob : ar.obj with
      | none => rw [hob] at h; dsimp only at h; cases h
      | some oname =>
        rw [hob] at h
        dsimp only at h
        cases hlk : lookupB st oname with
        | none => rw [hlk] at h; dsimp only at h; cases h
        | some ob =>
          rw [hlk] at h
          dsimp only at h
          cases hsz : ob.addr_size with
          | none => rw [hsz] at h; dsimp only at h; cases h
          | some osize =>
            rw [hsz] at h
            cases hbits : ob.adr_bits with
            | none => rw [hbits] at h; dsimp only at h; cases h
            | some obits =>
              rw [hbits] at h
              dsimp only at h
              cases h
              dsimp only
              refine Eq.trans (foldl_quad_pres
                (fun q => templGet q.templ_dict "register_access")
                _ _ ?_ _) ?_
              · intro acc i
                exact add_templ_get_ne _ _ _ _ _ (by decide)
              · exact add_templ_get_ne _ _ _ _ _ (by decide)

theorem genStage2_get_ra {st : Registry} {b1 : wb_block}
    {s : GenAreaState} (h : genStage2 st b1 = some s) :
    templGet s.blk.templ_dict "register_access" =
      templGet b1.templ_dict "register_access" := by
  unfold genStage2 at h
  suffices hgen : ∀ (l : List wb_area) (s0 sF : GenAreaState),
      List.foldlM (genArea st) s0 l = some sF →
      templGet sF.blk.templ_dict "register_access" =
        templGet s0.blk.templ_dict "register_access" by
    exact hgen b1.areas _ s h
  intro l
  induction l with
  | nil =>
    intro s0 sF h
    rw [List.foldlM_nil] at h
    cases h
    rfl
  | cons a rest ih =>
    intro s0 sF h
    rw [List.foldlM_cons] at h
    cases hg : genArea st s0 a with
    | none =>
      rw [hg] at h
      cases h
    | some s1 =>
      rw [hg] at h
      have h2 : List.foldlM (genArea st) s1 rest = some sF := h
      rw [ih s1 sF h2, genArea_get_ra hg]

theorem genFinishBlk_get_ra (s : GenAreaState) :
    templGet (genFinishBlk s).templ_dict "register_access" =
      templGet s.blk.templ_dict "register_access" := by
  unfold genFinishBlk
  dsimp only
  rw [add_templ_get_ne _ _ _ _ _ (by decide),
    add_templ_get_ne _ _ _ _ _ (by decide),
    add_templ_get_ne _ _ _ _ _ (by decide),
    add_templ_get_ne _ _ _ _ _ (by decide),
    add_templ_get_ne _ _ _ _ _ (by decide),
    add_templ_get_ne _ _ _ _ _ (by decide),
    add_templ_get_ne _ _ _ _ _ (by decide)]

theorem genFinish_get_ra {s : GenAreaState}
    {r : wb_block × String × String} (h : genFinish s = some r) :
    templGet r.1.templ_dict "register_access" =
      templGet s.blk.templ_dict "register_access" := by
  unfold genFinish at h
  cases hb : (genFinishBlk s).adr_bits with
  | none => rw [hb] at h; dsimp only at h; cases h
  | some bits =>
    rw [hb] at h
    dsimp only at h
    cases hw : renderPair ((genFinishBlk s).add_templ "valid_bits"
        (toString bits) 0).templ_dict with
    | none => rw [hw] at h; dsimp only at h; cases h
    | some pr =>
      obtain ⟨fwb, fpkg⟩ := pr
      rw [hw] at h
      dsimp only at h
      cases h
      rw [add_templ_get_ne _ _ _ _ _ (by decide), genFinishBlk_get_ra]

theorem gen_vhdl_get_ra {st : Registry} {b : wb_block}
    {r : wb_block × String × String}
    (h : wb_block.gen_vhdl st b = some r) :
    templGet r.1.templ_dict "register_access" =
      templGet (genStage1 b).templ_dict "register_access" := by
  unfold wb_block.gen_vhdl at h
  cases hs : genStage2 st (genStage1 b) with
  | none => rw [hs] at h; cases h
  | some s =>
    rw [hs] at h
    dsimp only at h
    rw [genFinish_get_ra h, genStage2_get_ra hs]

/-- C10: the decode key of every emitted register-access case arm is the
register's construction-time block-relative address `base + i` formatted
as a 32-bit binary literal; the `register_access` entry of the emitted
block is exactly the concatenation of those arms over the block's
registers, seeded only by the prior dictionary entry; and that entry is
identical for any two emitted blocks agreeing on `regs` and the initial
template dictionary — in particular it does not depend on `areas`,
`addr_size` or the `reg_base` computed during analysis, which no emission
stage reads. -/
theorem C10_reg_base_unused (st : Registry) (b : wb_block)
    (out : wb_block × String × String)
    (h : wb_block.gen_vhdl st b = some out) :
    templGet out.1.templ_dict "register_access" =
      some ((templGet b.templ_dict "register_access").getD "" ++
        regAccessText b.regs) ∧
    (∀ (r : wb_reg) (i : Nat), ∃ rest, r.accessArm i =
      "when \"" ++ pyFormat032b (r.base + i) ++ "\" => -- " ++
        pyHex (r.base + i) ++ "\n" ++ rest) ∧
    (∀ (b2 : wb_block) (st2 : Registry)
      (out2 : wb_block × String × String),
      b2.regs = b.regs → b2.templ_dict = b.templ_dict →
      wb_block.gen_vhdl st2 b2 = some out2 →
      templGet out2.1.templ_dict "register_access" =
        templGet out.1.templ_dict "register_access") := by
  have hmain : ∀ (st1 : Registry) (b1 : wb_block)
      (o : wb_block × String × String), wb_block.gen_vhdl st1 b1 = some o →
      templGet o.1.templ_dict "register_access" =
        some ((templGet b1.templ_dict "register_access").getD "" ++
          regAccessText b1.regs) := by
    intro st1 b1 o h1
    rw [gen_vhdl_get_ra h1, genStage1_dict]
    exact stage1Dict_get _ _
  refine ⟨hmain st b out h, ?_, ?_⟩
  · intro r i
    exact ⟨_, str_append_assoc _ _ _⟩
  · intro b2 st2 out2 hregs hdict h2
    rw [hmain st2 b2 out2 h2, hmain st b out h, hregs, hdict]

def exOut : wb_block × String × String :=
  (wb_block.gen_vhdl exStARes exTA).getD (emptyBlk, "", "")

def exTAmod : wb_block := { exTA with reg_base := some 999 }

def exOut2 : wb_block × String × String :=
  (wb_block.gen_vhdl exStARes exTAmod).getD (emptyBlk, "", "")

set_option maxRecDepth 10000 in
set_option maxHeartbeats 2000000 in
theorem C10_reg_base_unused_witness :
    exTAmod.reg_base ≠ exTA.reg_base ∧
    templGet exOut.1.templ_dict "register_access" =
      some ((templGet exTA.templ_dict "register_access").getD "" ++
        regAccessText exTA.regs) ∧
    templGet exOut2.1.templ_dict "register_access" =
      templGet exOut.1.templ_dict "register_access" := by
  have h := C10_reg_base_unused exStARes exTA exOut rfl
  exact ⟨by decide, h.1, h.2.2 exTAmod exStARes exOut2 rfl rfl rfl⟩

/-! ## Claim C7: emission mutates the model and is not idempotent -/

theorem str_length_append (a b : String) :
    (a ++ b).length = a.length + b.length := by
  cases a; cases b
  simp [String.append, String.length]

theorem foldl_addTemplD_get_ne {α : Type} (key : String) (g : α → String)
    (ind : Nat) (l : List α) (k : String) (h : k ≠ key) :
    ∀ d, templGet (l.foldl (fun d a => addTemplD d key (g a) ind) d) k =
      templGet d k := by
  induction l with
  | nil => intro d; rfl
  | cons a rest ih =>
    intro d
    rw [List.foldl_cons, ih, addTemplD_get_ne _ _ _ _ _ h]

theorem regDictF_get_bid (d : List (String × String)) (r : wb_reg) :
    templGet (regDictF d r) "block_id" = templGet d "block_id" := by
  unfold regDictF
  rw [foldl_addTemplD_get_ne _ _ _ _ _ (by decide),
    addTemplD_get_ne _ _ _ _ _ (by decide),
    addTemplD_get_ne _ _ _ _ _ (by decide),
    addTemplD_get_ne _ _ _ _ _ (by decide)]

theorem stage1Dict_get_bid (d : List (String × String))
    (regs : List wb_reg) :
    templGet (stage1Dict d regs) "block_id" = templGet d "block_id" := by
  unfold stage1Dict
  have hf : ∀ (rs : List wb_reg) (d0 : List (String × String)),
      templGet (rs.foldl regDictF d0) "block_id" =
        templGet d0 "block_id" := by
    intro rs
    induction rs with
    | nil => intro d0; rfl
    | cons r rest ih =>
      intro d0
      rw [List.foldl_cons, ih, regDictF_get_bid]
  rw [hf]
  rw [addTemplD_get_ne _ _ _ _ _ (by decide),
    addTemplD_get_ne _ _ _ _ _ (by decide),
    addTemplD_get_ne _ _ _ _ _ (by decide),
    addTemplD_get_ne _ _ _ _ _ (by decide),
    addTemplD_get_ne _ _ _ _ _ (by decide)]

theorem genArea_get_bid {st : Registry} {s s' : GenAreaState}
    {ar : wb_area} (h : genArea st s ar = some s') :
    templGet s'.blk.templ_dict "block_id" =
      templGet s.blk.templ_dict "block_id" := by
  unfold genArea at h
  split at h
  · cases hob : ar.adr_bits with
    | none => rw [hob] at h; dsimp only at h; cases h
    | some bits =>
      rw [hob] at h
      dsimp only at h
      cases hnm : ar.name with
      | none => rw [hnm] at h; dsimp only at h; cases h
      | some nm =>
        rw [hnm] at h
        dsimp only at h
        cases h
        dsimp only
        rw [add_templ_get_ne _ _ _ _ _ (by decide)]
        by_cases hobj : ar.obj.isSome
        · rw [if_pos hobj, add_templ_get_ne _ _ _ _ _ (by decide)]
        · rw [if_neg hobj]
  · cases hnm : ar.name with
    | none => rw [hnm] at h; dsimp only at h; cases h
    | some nm =>
      rw [hnm] at h
      dsimp only at h
      cases hob : ar.obj with
      | none => rw [hob] at h; dsimp only at h; cases h
      | some oname =>
        rw [hob] at h
        dsimp only at h
        cases hlk : lookupB st oname with
        | none => rw [hlk] at h; dsimp only at h; cases h
        | some ob =>
          rw [hlk] at h
          dsimp only at h
          cases hsz : ob.addr_size with
          | none => rw [hsz] at h; dsimp only at h; cases h
          | some osize =>
            rw [hsz] at h
            cases hbits : ob.adr_bits with
            | none => rw [hbits] at h; dsimp only at h; cases h
            | some obits =>
              rw [hbits] at h
              dsimp only at h
              cases h
              dsimp only
              refine Eq.trans (foldl_quad_pres
                (fun q => templGet q.templ_dict "block_id")
                _ _ ?_ _) ?_
              · intro acc i
                exact add_templ_get_ne _ _ _ _ _ (by decide)
              · exact add_templ_get_ne _ _ _ _ _ (by decide)

theorem genStage2_get_bid {st : Registry} {b1 : wb_block}
    {s : GenAreaState} (h : genStage2 st b1 = some s) :
    templGet s.blk.templ_dict "block_id" =
      templGet b1.templ_dict "block_id" := by
  unfold genStage2 at h
  suffices hgen : ∀ (l : List wb_area) (s0 sF : GenAreaState),
      List.foldlM (genArea st) s0 l = some sF →
      templGet sF.blk.templ_dict "block_id" =
        templGet s0.blk.templ_dict "block_id" by
    exact hgen b1.areas _ s h
  intro l
  induction l with
  | nil =>
    intro s0 sF h
    rw [List.foldlM_nil] at h
    cases h
    rfl
  | cons a rest ih =>
    intro s0 sF h
    rw [List.foldlM_cons] at h
    cases hg : genArea st s0 a with
    | none =>
      rw [hg] at h
      cases h
    | some s1 =>
      rw [hg] at h
      have h2 : List.foldlM (genArea st) s1 rest = some sF := h
      rw [ih s1 sF h2, genArea_get_bid hg]

theorem genFinishBlk_get_bid (s : GenAreaState) :
    templGet (genFinishBlk s).templ_dict "block_id" =
      some ((templGet s.blk.templ_dict "block_id").getD "" ++
        "x\"00001234\"") := by
  unfold genFinishBlk
  dsimp only
  rw [add_templ_get_ne _ _ _ _ _ (by decide),
    add_templ_get_ne _ _ _ _ _ (by decide),
    add_templ_get_ne _ _ _ _ _ (by decide),
    add_templ_get_ne _ _ _ _ _ (by decide),
    add_templ_get_ne _ _ _ _ _ (by decide),
    add_templ_get_ne _ _ _ _ _ (by decide)]
  rw [add_templ_dict, addTemplD_get_self]
  rfl

theorem genFinish_get_bid {s : GenAreaState}
    {r : wb_block × String × String} (h : genFinish s = some r) :
    templGet r.1.templ_dict "block_id" =
      some ((templGet s.blk.templ_dict "block_id").getD "" ++
        "x\"00001234\"") := by
  unfold genFinish at h
  cases hb : (genFinishBlk s).adr_bits with
  | none => rw [hb] at h; dsimp only at h; cases h
  | some bits =>
    rw [hb] at h
    dsimp only at h
    cases hw : renderPair ((genFinishBlk s).add_templ "valid_bits"
        (toString bits) 0).templ_dict with
    | none => rw [hw] at h; dsimp only at h; cases h
    | some pr =>
      obtain ⟨fwb, fpkg⟩ := pr
      rw [hw] at h
      dsimp only at h
      cases h
      rw [add_templ_get_ne _ _ _ _ _ (by decide), genFinishBlk_get_bid]

set_option maxRecDepth 4000 in
/-- C7 (amended): emission mutates the model.  Every successful
`gen_vhdl` grows the block's `block_id` template entry by one copy of
the identification literal, so the returned block's template dictionary
always differs from the input's; invoking the emitter again on the
returned (mutated) block therefore starts from a different model, and
its artifacts are not byte-identical to the first run's (see the
counterexample). -/
theorem C7_emission_not_idempotent (st : Registry) (b : wb_block)
    (out : wb_block × String × String)
    (h : wb_block.gen_vhdl st b = some out) :
    templGet out.1.templ_dict "block_id" =
      some ((templGet b.templ_dict "block_id").getD "" ++
        "x\"00001234\"") ∧
    out.1.templ_dict ≠ b.templ_dict := by
  have hbid : templGet out.1.templ_dict "block_id" =
      some ((templGet b.templ_dict "block_id").getD "" ++
        "x\"00001234\"") := by
    unfold wb_block.gen_vhdl at h
    cases hs : genStage2 st (genStage1 b) with
    | none => rw [hs] at h; cases h
    | some s =>
      rw [hs] at h
      dsimp only at h
      rw [genFinish_get_bid h, genStage2_get_bid hs, genStage1_dict]
      rw [show ({ b with templ_dict := stage1Dict b.templ_dict b.regs }
        : wb_block).templ_dict = stage1Dict b.templ_dict b.regs from rfl,
        stage1Dict_get_bid]
  refine ⟨hbid, fun heq => ?_⟩
  rw [heq] at hbid
  cases hv : templGet b.templ_dict "block_id" with
  | none =>
    rw [hv] at hbid
    cases hbid
  | some v =>
    rw [hv] at hbid
    have hveq : v = v ++ "x\"00001234\"" := Option.some.inj hbid
    have hlen := congrArg String.length hveq
    rw [str_length_append,
      show ("x\"00001234\"" : String).length = 11 from rfl] at hlen
    omega

def exOutB : wb_block × String × String :=
  (wb_block.gen_vhdl exStARes exOut.1).getD (emptyBlk, "", "")

set_option maxRecDepth 100000 in
set_option maxHeartbeats 2000000 in
/-- C7 counterexample: emitting the analyzed block `t` returns a mutated
block (`exOut.1 ≠ exTA`), and emitting again on that returned block
succeeds but produces a different `<name>_wb.vhd` text — the artifacts of
the two runs are not byte-identical, refuting the claim as stated. -/
theorem C7_emission_counterexample :
    wb_block.gen_vhdl exStARes exTA = some exOut ∧
    exOut.1 ≠ exTA ∧
    wb_block.gen_vhdl exStARes exOut.1 = some exOutB ∧
    exOutB.2.1 ≠ exOut.2.1 := by
  refine ⟨rfl, by decide, rfl, fun he => ?_⟩
  have hpre : exOutB.2.1.data.take 300 = exOut.2.1.data.take 300 := by
    rw [he]
  exact absurd hpre (by decide)

set_option maxRecDepth 100000 in
set_option maxHeartbeats 2000000 in
theorem C7_emission_not_idempotent_witness :
    templGet exOut.1.templ_dict "block_id" =
      some ((templGet exTA.templ_dict "block_id").getD "" ++
        "x\"00001234\"") ∧
    exOut.1.templ_dict ≠ exTA.templ_dict :=
  C7_emission_not_idempotent exStARes exTA exOut rfl

end AddrGenWb
